import Mathlib

/-!
Shallow embedding of the InnoDB transaction purge subsystem
(`storage/innobase/trx/trx0purge.cc`, MariaDB).

The embedding models, at the granularity of undo logs and undo records:

* the purge iterator (`TrxUndoRsegsIterator::set_next`) and the record
  fetch machinery (`trx_purge_read_undo_rec`, `trx_purge_choose_next_log`,
  `trx_purge_rseg_get_next_history_log`, `trx_purge_get_next_rec`,
  `trx_purge_fetch_next_rec`) together with the batch loop of
  `trx_purge_attach_undo_recs`;
* the history truncation loop `trx_purge_truncate_rseg_history` with
  `trx_purge_free_segment`, and the head-clamping entry of
  `trx_purge_truncate_history`;
* the undo tablespace truncation of `trx_purge_truncate_history`
  (candidate selection, quiescence checks, shrink and rollback segment
  header re-initialization);
* `trx_purge_cleanse_purge_queue`.

Page-level layout (mini-transactions, latches, buffer pool) is abstracted
into pure state transitions; undo logs are lists of undo numbers, history
lists are Lean lists kept in the direction the source walks them (oldest
entry first, i.e. from `flst_get_last` through the `TRX_UNDO_HISTORY_NODE`
prev pointers).
-/

/-- Purge position (`purge_sys_t::iterator`): a (trx_no, undo_no) pair.
`head` marks the start of the current batch, `tail` the next record to
fetch. -/
structure PurgePos where
  trx_no : Nat
  undo_no : Nat
deriving DecidableEq

/-- Modelled from the spec: the comparison operator of
`purge_sys_t::iterator` is declared in trx0purge.h (not among these
sources); per the data model, (trx_no, undo_no) pairs are ordered
lexicographically ("Together, (trx_no, undo_no) totally orders every
purgeable record system-wide"). -/
instance : LE PurgePos :=
  ⟨fun a b => a.trx_no < b.trx_no ∨ (a.trx_no = b.trx_no ∧ a.undo_no ≤ b.undo_no)⟩

instance (a b : PurgePos) : Decidable (a ≤ b) :=
  inferInstanceAs (Decidable (a.trx_no < b.trx_no ∨ (a.trx_no = b.trx_no ∧ a.undo_no ≤ b.undo_no)))

/-! ### The purge iterator and record fetch machinery -/

/-- One undo log on a rollback segment's history list, as seen by the
purge iterator: the owning transaction's commit sequence number
(`TRX_UNDO_TRX_NO` of the log header) and the undo numbers of its records
in log order. -/
structure HistLog where
  trx_no : Nat
  recs : List Nat
deriving DecidableEq

/-- Purge-iterator view of a rollback segment (`trx_rseg_t`): `hist` is
the still-pending suffix of the history list, oldest entry first — the
walk starting at `last_page_no`/`last_offset()` and following the
`TRX_UNDO_HISTORY_NODE` prev pointers.  `hist = []` encodes
`last_page_no == FIL_NULL`.  `needs_purge` is the rseg-level trx id bound
consulted by `trx_purge_read_undo_rec`; `space` is the undo tablespace id
(used by `trx_purge_cleanse_purge_queue`). -/
structure PurgeRseg where
  id : Nat
  space : Nat
  hist : List HistLog
  needs_purge : Nat
deriving DecidableEq

/-- `trx_rseg_t::last_trx_no()`: the commit number of the log at
`last_page_no` (0 is never consulted by the source when
`last_page_no == FIL_NULL`). -/
def PurgeRseg.last_trx_no (r : PurgeRseg) : Nat :=
  match r.hist with
  | [] => 0
  | log :: _ => log.trx_no

/-- `TrxUndoRsegs`: one element of the purge priority queue — a group of
rollback segments sharing the same oldest unpurged commit number. -/
structure TrxUndoRsegs where
  trx_no : Nat
  rsegs : List PurgeRseg
deriving DecidableEq

/-- `top()`/`pop()` of a min-priority queue keyed by `key`, modelled on a
plain list: the element with the least key is removed (first listed among
ties, matching an arbitrary tie-break). -/
def popMinBy {α : Type} (key : α → Nat) : List α → Option (α × List α)
  | [] => none
  | g :: gs =>
    match popMinBy key gs with
    | none => some (g, gs)
    | some (m, rest) =>
      if key g ≤ key m then some (g, gs) else some (m, g :: rest)

/-- The purge-coordinator state for one batch: the `purge_sys` fields
plus the `TrxUndoRsegsIterator` remainder `grp` (`m_iter` up to
`m_rsegs.end()`).  `curRecs` is the tail of the current log's record list
starting at the cursor (`page_no`/`offset`); `offset0` encodes
`purge_sys.offset == 0` (the dummy position meaning the current log needs
no purge).  `pages` models the `n_pages_handled` in/out parameter
(incremented once per handled log; the extra increment when a multi-page
log crosses a page boundary is not distinguished at this granularity).
`low_limit_no` is the view floor `purge_sys.view.low_limit_no()`,
constant during a batch (the view is cloned before the batch starts). -/
structure PurgeState where
  queue : List TrxUndoRsegs
  grp : List PurgeRseg
  rseg : Option PurgeRseg
  curRecs : List Nat
  offset0 : Bool
  tail : PurgePos
  head : PurgePos
  next_stored : Bool
  low_limit_no : Nat
  pages : Nat
deriving DecidableEq

/-- The activation tail of `TrxUndoRsegsIterator::set_next` (lines
108-128): `purge_sys.rseg = *m_iter++`, then
`purge_sys.tail.trx_no = purge_sys.rseg->last_trx_no()` and the header
cursor assignments (subsumed in `hist`). -/
def activateRseg (s : PurgeState) (r : PurgeRseg) (rest : List PurgeRseg) : PurgeState :=
  { s with grp := rest, rseg := some r,
           tail := { s.tail with trx_no := r.last_trx_no } }

/-- `TrxUndoRsegsIterator::set_next` (lines 77-129).  In the
still-in-group branch the source first rolls `tail.trx_no` back to
`(*m_iter)->last_trx_no()`; the final assignment (line 122) writes the
same value, so the two writes are collapsed into `activateRseg`.  A
popped group with an empty segment list cannot occur (every queue element
is built around at least one rollback segment); that branch is a
defensive no-advance. -/
def set_next (s : PurgeState) : PurgeState × Bool :=
  match s.grp with
  | r :: rest => (activateRseg s r rest, true)
  | [] =>
    match popMinBy (fun g => g.trx_no) s.queue with
    | some (g, q) =>
      match g.rsegs with
      | r :: rest => (activateRseg { s with queue := q } r rest, true)
      | [] => ({ s with queue := q, rseg := none }, false)
    | none =>
      ({ s with rseg := none }, false)

/-- `trx_purge_read_undo_rec` (lines 893-930): position the cursor on the
first record of the log at `last_page_no` when the rollback segment needs
purge, else on the dummy position `offset = 0`. -/
def trx_purge_read_undo_rec (s : PurgeState) : PurgeState :=
  match s.rseg with
  | none => s
  | some r =>
    let log := r.hist.headD ⟨0, []⟩
    match (if r.needs_purge ≠ 0 then log.recs.head? else none) with
    | some u =>
      { s with offset0 := false, curRecs := log.recs,
               tail := { s.tail with undo_no := u }, next_stored := true }
    | none =>
      { s with offset0 := true, curRecs := [],
               tail := { s.tail with undo_no := 0 }, next_stored := true }

/-- `trx_purge_rseg_get_next_history_log` (lines 812-890): advance
`tail` past the just-handled log, step `last_page_no` to the previous
(next newer) history entry, and push the rollback segment back onto the
purge queue when history remains. -/
def trx_purge_rseg_get_next_history_log (s : PurgeState) : PurgeState :=
  match s.rseg with
  | none => s
  | some r =>
    let s1 := { s with tail := ⟨r.last_trx_no + 1, 0⟩,
                       next_stored := false, pages := s.pages + 1 }
    match r.hist with
    | [] => s1
    | _ :: rest =>
      let r1 : PurgeRseg := { r with hist := rest }
      match rest with
      | [] => { s1 with rseg := some r1 }
      | _ :: _ =>
        { s1 with rseg := some r1,
                  queue := s1.queue ++ [⟨r1.last_trx_no, [r1]⟩] }

/-- `trx_purge_choose_next_log` (lines 939-950). -/
def trx_purge_choose_next_log (s : PurgeState) : PurgeState :=
  match set_next s with
  | (s1, true) => trx_purge_read_undo_rec s1
  | (s1, false) => s1

/-- Result of one record fetch: the dummy record (`trx_purge_dummy_rec`,
whole log skipped) or a copy of a real undo record, identified by the
owning rollback segment's id and its (trx_no, undo_no) position. -/
inductive FetchRes where
  | dummy
  | undoRec (rsegId : Nat) (pos : PurgePos)
deriving DecidableEq

/-- `trx_purge_get_next_rec` (lines 957-1030): return the record at the
cursor and advance the cursor — within the log when a next record exists,
otherwise on to the next history log. -/
def trx_purge_get_next_rec (s : PurgeState) : PurgeState × FetchRes :=
  match s.rseg with
  | none => (s, .dummy)
  | some r =>
    if s.offset0 then
      (trx_purge_choose_next_log (trx_purge_rseg_get_next_history_log s), .dummy)
    else
      match s.curRecs with
      | [] => (s, .dummy)
      | u :: rest =>
        let res := FetchRes.undoRec r.id ⟨(r.hist.headD ⟨0, []⟩).trx_no, u⟩
        match rest with
        | [] =>
          (trx_purge_choose_next_log (trx_purge_rseg_get_next_history_log s), res)
        | u2 :: _ =>
          ({ s with curRecs := rest, tail := { s.tail with undo_no := u2 } }, res)

/-- `trx_purge_fetch_next_rec` (lines 1039-1075): position the iterator
if needed, stop (NULL) when nothing is stored or when
`tail.trx_no >= low_limit_no()`, else hand out the next record. -/
def trx_purge_fetch_next_rec (s : PurgeState) : PurgeState × Option FetchRes :=
  let s1 := if s.next_stored then s else trx_purge_choose_next_log s
  if s1.next_stored = false then (s1, none)
  else if s1.low_limit_no ≤ s1.tail.trx_no then (s1, none)
  else
    let (s2, r) := trx_purge_get_next_rec s1
    (s2, some r)

/-- The fetch loop of `trx_purge_attach_undo_recs` (lines 1129-1181),
with the records routed to worker buckets collected into a list.  The
loop guard `srv_undo_sources || !srv_fast_shutdown` is modelled as true
(normal operation); `fuel` bounds the iteration count.  Per source, the
batch-size check happens only after a real record was bucketed; a dummy
record just continues. -/
def attachLoop (batch : Nat) : Nat → PurgeState → PurgeState × List (Nat × PurgePos)
  | 0, s => (s, [])
  | fuel+1, s =>
    let s0 := if s.head ≤ s.tail then { s with head := s.tail } else s
    match trx_purge_fetch_next_rec s0 with
    | (s1, none) => (s1, [])
    | (s1, some .dummy) => attachLoop batch fuel s1
    | (s1, some (.undoRec i pos)) =>
      if batch ≤ s1.pages then (s1, [(i, pos)])
      else
        let (s2, ems) := attachLoop batch fuel s1
        (s2, (i, pos) :: ems)

/-- `trx_purge_attach_undo_recs` (lines 1082-1186): set
`purge_sys.head = purge_sys.tail` and run the fetch loop. -/
def trx_purge_attach_undo_recs (batch fuel : Nat) (s : PurgeState) :
    PurgeState × List (Nat × PurgePos) :=
  attachLoop batch fuel { s with head := s.tail }

/-! ### History truncation -/

/-- One undo log header on the history list as read by the truncation
walk: its commit number, whether the segment state is
`TRX_UNDO_TO_PURGE`, whether `TRX_UNDO_NEXT_LOG` is nonzero (a successor
log shares the segment), and the segment's page count
(`flst_get_len(TRX_UNDO_SEG_HDR + TRX_UNDO_PAGE_LIST)`). -/
structure HistEntry where
  trx_no : Nat
  to_purge : Bool
  next_log : Bool
  seg_size : Nat
deriving DecidableEq

/-- Truncation view of `trx_rseg_t`: the full history list oldest-first
(the walk from `flst_get_last` through the prev pointers), the in-memory
`curr_size`, the on-page `TRX_RSEG_HISTORY_SIZE` field, and the fields
the caller consults to compute `all`. -/
structure trx_rseg_t where
  hist : List HistEntry
  curr_size : Nat
  hist_size : Nat
  trx_ref_count : Nat
  needs_purge : Nat
deriving DecidableEq

/-- Outcome of `trx_purge_truncate_rseg_history` on one rollback
segment: the remaining history list (oldest first), the updated
`curr_size` and `TRX_RSEG_HISTORY_SIZE`, the total pages released back to
the tablespace by `trx_purge_free_segment`, the number of history entries
removed (`trx_sys.rseg_history_len` decrements), and the
`trx_undo_truncate_start` invocations as (header trx_no, limit undo_no)
pairs. -/
structure TruncHistResult where
  hist : List HistEntry
  curr_size : Nat
  hist_size : Nat
  freed_pages : Nat
  removed : Nat
  trunc_start : List (Nat × Nat)
deriving DecidableEq

/-- Bookkeeping effect of `trx_purge_free_segment` (lines 346-391):
`rseg->curr_size -= seg_size`, the `TRX_RSEG_HISTORY_SIZE` field is
rewritten to its old value minus `seg_size`, and the `fseg_free_step`
loops release the segment's `seg_size` pages back to the tablespace.
(The history node removal itself is accounted by the caller.) -/
def trx_purge_free_segment (curr_size hist_size seg_size : Nat) : Nat × Nat × Nat :=
  (curr_size - seg_size, hist_size - seg_size, seg_size)

/-- The `loop` of `trx_purge_truncate_rseg_history` (lines 397-471),
walking the history list oldest entry first.  An entry at or above the
limit stops the walk (after a partial `trx_undo_truncate_start` when the
commit numbers are equal); `all = false` stops before removing anything;
otherwise the entry is removed — freeing the whole segment when its state
is `TRX_UNDO_TO_PURGE` and it has no successor log. -/
def truncHistLoop (limit : PurgePos) (all : Bool) :
    List HistEntry → Nat → Nat → Nat → Nat → List (Nat × Nat) → TruncHistResult
  | [], cs, hs, freed, rem, ts => ⟨[], cs, hs, freed, rem, ts⟩
  | e :: rest, cs, hs, freed, rem, ts =>
    if limit.trx_no ≤ e.trx_no then
      if e.trx_no = limit.trx_no then
        ⟨e :: rest, cs, hs, freed, rem, ts ++ [(e.trx_no, limit.undo_no)]⟩
      else ⟨e :: rest, cs, hs, freed, rem, ts⟩
    else if all = false then ⟨e :: rest, cs, hs, freed, rem, ts⟩
    else if e.to_purge = true ∧ e.next_log = false then
      match trx_purge_free_segment cs hs e.seg_size with
      | (cs1, hs1, fp) => truncHistLoop limit all rest cs1 hs1 (freed + fp) (rem + 1) ts
    else
      truncHistLoop limit all rest cs hs freed (rem + 1) ts

/-- `trx_purge_truncate_rseg_history` (lines 397-471). -/
def trx_purge_truncate_rseg_history (rseg : trx_rseg_t) (limit : PurgePos)
    (all : Bool) : TruncHistResult :=
  truncHistLoop limit all rseg.hist rseg.curr_size rseg.hist_size 0 0 []

/-- The head selection and clamp at the start of
`trx_purge_truncate_history` (lines 524-533): the effective head is
`purge_sys.head`, or `purge_sys.tail` when `head.trx_no` is zero; when it
is at or past the view floor it is reset to exactly
(low_limit_no, 0). -/
def clampHead (head tail : PurgePos) (llno : Nat) : PurgePos :=
  let h := if head.trx_no ≠ 0 then head else tail
  if llno ≤ h.trx_no then ⟨llno, 0⟩ else h

/-- Modelled from the spec: `purge_sys.sees(id)` is declared in
trx0purge.h (not among these sources); per the spec it holds when "the
purge visibility floor has passed" the given commit number. -/
def purge_sees (llno id : Nat) : Bool := decide (id < llno)

/-- The per-rollback-segment call of the truncate phase (lines 535-548):
`all` is `!rseg->trx_ref_count && purge_sys.sees(rseg->needs_purge)`. -/
def truncateHistoryRseg (h : PurgePos) (llno : Nat) (rseg : trx_rseg_t) : TruncHistResult :=
  trx_purge_truncate_rseg_history rseg h
    ((rseg.trx_ref_count == 0) && purge_sees llno rseg.needs_purge)

/-- The history-truncation part of `trx_purge_truncate_history` (lines
522-548): clamp the head, then truncate every rollback segment's history
against it.  (The undo tablespace truncation in the rest of that function
is modelled separately below.) -/
def trx_purge_truncate_history (head tail : PurgePos) (llno : Nat)
    (rsegs : List trx_rseg_t) : PurgePos × List TruncHistResult :=
  let h := clampHead head tail llno
  (h, rsegs.map (truncateHistoryRseg h llno))

/-! ### Undo tablespace truncation -/

/-- A cached (reusable) undo log segment on `rseg->undo_cached`. -/
structure CachedUndo where
  trx_id : Nat
  size : Nat
deriving DecidableEq

/-- The rollback segment fields touched by undo tablespace truncation
(lines 589-779).  `last_page_no = none` encodes `FIL_NULL`. -/
structure TruncRseg where
  space : Nat
  curr_size : Nat
  trx_ref_count : Nat
  needs_purge : Nat
  skip_allocation : Bool
  undo_cached : List CachedUndo
  last_page_no : Option Nat
  last_commit_and_offset : Nat
  hist_size : Nat
deriving DecidableEq

/-- The global state consulted by the undo tablespace truncation part of
`trx_purge_truncate_history` (lines 550-806).  `spaces` gives each
tablespace's current size in pages (`fil_space_t::get_size`);
`threshold` is `srv_max_undo_log_size >> srv_page_size_shift`. -/
structure UndoTruncSys where
  spaces : Nat → Nat
  rsegs : List TruncRseg
  truncate_current : Option Nat
  truncate_last : Option Nat
  head : PurgePos
  low_limit_no : Nat
  srv_fast_shutdown : Bool
  srv_undo_sources : Bool
  srv_shutdown : Bool
  rseg_history_len : Nat
  srv_undo_space_id_start : Nat
  srv_undo_tablespaces_active : Nat
  threshold : Nat

/-- The candidate scan loop (lines 559-578): probe space
`srv_undo_space_id_start + i`, stop on the first whose size exceeds the
threshold, advance `i` cyclically and give up when it returns to the
starting index `j`.  `fuel` bounds the loop; `selectCandidate` supplies
`srv_undo_tablespaces_active`, which the wrap test makes exact. -/
def selectLoop (sys : UndoTruncSys) (j : Nat) : Nat → Nat → Option Nat
  | _, 0 => none
  | i, fuel+1 =>
    let sid := sys.srv_undo_space_id_start + i
    if sys.threshold < sys.spaces sid then some sid
    else
      let i1 := (i + 1) % sys.srv_undo_tablespaces_active
      if i1 = j then none else selectLoop sys j i1 fuel

/-- Candidate selection when `truncate.current` is unset (lines 555-578):
the scan starts at index `truncate.last->id - srv_undo_space_id_start`
(0 when nothing was truncated yet). -/
def selectCandidate (sys : UndoTruncSys) : Option Nat :=
  let j := match sys.truncate_last with
    | some lastId => lastId - sys.srv_undo_space_id_start
    | none => 0
  selectLoop sys j j sys.srv_undo_tablespaces_active

/-- The `skip_allocation` marking and quiescence checks for the rollback
segments of the candidate space, in array order (lines 589-629): returns
the updated segment list and whether every segment of the space is
quiescent.  On a `not_free` early return the segments examined so far
keep their `skip_allocation = true` marking. -/
def quiesceLoop (head : PurgePos) (llno : Nat) (fast srcs : Bool) (histLen sid : Nat) :
    List TruncRseg → List TruncRseg × Bool
  | [] => ([], true)
  | r :: rest =>
    if r.space ≠ sid then
      match quiesceLoop head llno fast srcs histLen sid rest with
      | (rs, ok) => (r :: rs, ok)
    else
      let r1 := { r with skip_allocation := true }
      if r1.trx_ref_count ≠ 0 ∨ purge_sees llno r1.needs_purge = false then
        (r1 :: rest, false)
      else if r1.undo_cached.any (fun u => (head.trx_no != 0) && decide (head.trx_no < u.trx_id)) then
        (r1 :: rest, false)
      else
        let cached := (r1.undo_cached.map (fun u => u.size)).sum
        if cached + 1 < r1.curr_size ∧ (fast ∨ srcs ∨ histLen ≠ 0) then
          (r1 :: rest, false)
        else
          match quiesceLoop head llno fast srcs histLen sid rest with
          | (rs, ok) => (r1 :: rs, ok)

/-- The rollback segment header re-creation after the shrink (lines
747-778): `trx_rseg_header_create` writes a fresh header (zero
`TRX_RSEG_FORMAT` and `TRX_RSEG_HISTORY_SIZE`), the cached undo segments
are freed, and the in-memory fields are reset. -/
def reinitRseg (r : TruncRseg) : TruncRseg :=
  { r with curr_size := 1, trx_ref_count := 0, needs_purge := 0,
           skip_allocation := false, undo_cached := [],
           last_page_no := none, last_commit_and_offset := 0, hist_size := 0 }

/-- Outcome of one iteration of the `while (srv_undo_log_truncate)` loop. -/
inductive TruncOutcome where
  | done (sys : UndoTruncSys)
  | earlyReturn (sys : UndoTruncSys)
  | success (sid : Nat) (sys : UndoTruncSys)

/-- Lines 581-806 for an already-chosen candidate space `sid`: mark and
check its rollback segments (early `not_free` return keeps
`truncate.current` so the same space is retried), honour a fast-shutdown
request, then shrink the file to `minSize`
(`SRV_UNDO_TABLESPACE_SIZE_IN_PAGES`), re-create every resident rollback
segment header, record `truncate.last` and clear `truncate.current`.
The flush-list write-out and `fil_truncate_prepare` are kept abstract
(the latter's failure path is another early return that also keeps
`truncate.current`). -/
def truncateSpace (minSize : Nat) (sys : UndoTruncSys) (sid : Nat) : TruncOutcome :=
  match quiesceLoop sys.head sys.low_limit_no sys.srv_fast_shutdown
      sys.srv_undo_sources sys.rseg_history_len sid sys.rsegs with
  | (rs, ok) =>
    let sys1 := { sys with rsegs := rs }
    if ok = false then .earlyReturn sys1
    else if sys1.srv_shutdown && sys1.srv_fast_shutdown then .earlyReturn sys1
    else
      .success sid
        { sys1 with
          spaces := fun x => if x = sid then minSize else sys1.spaces x,
          rsegs := sys1.rsegs.map (fun r => if r.space = sid then reinitRseg r else r),
          truncate_last := some sid,
          truncate_current := none }

/-- One iteration of the undo tablespace truncation loop (lines
553-806): use `truncate.current` if set, else select a candidate
(storing it in `truncate.current`); exit the loop when no space exceeds
the threshold. -/
def truncateStep (minSize : Nat) (sys : UndoTruncSys) : TruncOutcome :=
  match sys.truncate_current with
  | none =>
    match selectCandidate sys with
    | none => .done sys
    | some sid => truncateSpace minSize { sys with truncate_current := some sid } sid
  | some sid => truncateSpace minSize sys sid

/-! ### Purge queue cleansing -/

/-- The inner erase of `trx_purge_cleanse_purge_queue` (lines 494-501):
remove the first rollback segment of the given tablespace from a group
(the loop breaks after the first erase). -/
def eraseFirstSpace (sid : Nat) : List PurgeRseg → List PurgeRseg
  | [] => []
  | r :: rs => if r.space = sid then rs else r :: eraseFirstSpace sid rs

/-- Drain a min-priority queue completely in pop order (the first while
loop of `trx_purge_cleanse_purge_queue`); the length-based fuel makes the
recursion structural. -/
def drainLoop {α : Type} (key : α → Nat) : Nat → List α → List α
  | 0, _ => []
  | fuel+1, q =>
    match popMinBy key q with
    | none => []
    | some (g, rest) => g :: drainLoop key fuel rest

/-- All elements of the queue in pop order. -/
def drainAll {α : Type} (key : α → Nat) (q : List α) : List α :=
  drainLoop key q.length q

/-- `trx_purge_cleanse_purge_queue` (lines 476-509): drain the queue,
erase from each group the first rollback segment residing in the
tablespace being truncated, and push back every group that remains
non-empty (the push is modelled as appending, the queue being ordered
only through `popMinBy`). -/
def trx_purge_cleanse_purge_queue (sid : Nat) (q : List TrxUndoRsegs) :
    List TrxUndoRsegs :=
  (drainAll (fun g => g.trx_no) q).foldl
    (fun acc g =>
      let g1 : TrxUndoRsegs := ⟨g.trx_no, eraseFirstSpace sid g.rsegs⟩
      if g1.rsegs.isEmpty then acc else acc ++ [g1])
    []

/-! ### Derived views and invariants used by the statements -/

/-- The segment-page sum that `trx_purge_truncate_rseg_history` frees
when `all` holds: the history entries strictly below the limit (the part
of the walk before it stops) whose segments are in state
`TRX_UNDO_TO_PURGE` with no successor log. -/
def freedSpecOf (limit : PurgePos) (hist : List HistEntry) : Nat :=
  (((hist.takeWhile (fun e => decide (e.trx_no < limit.trx_no))).filter
      (fun e => e.to_purge && !e.next_log)).map (fun e => e.seg_size)).sum

/-- Rollback segments parked in the purge queue or in the iterator's
current group. -/
def parkedRsegs (s : PurgeState) : List PurgeRseg :=
  s.queue.flatMap (fun g => g.rsegs) ++ s.grp

/-- The active rollback segment (`purge_sys.rseg`) as a list. -/
def activeList (s : PurgeState) : List PurgeRseg :=
  match s.rseg with
  | some r => [r]
  | none => []

/-- The records of one history log as purge positions, in log order. -/
def flatLog (log : HistLog) : List PurgePos :=
  log.recs.map (fun u => ⟨log.trx_no, u⟩)

/-- All records of a pending history suffix, oldest log first. -/
def flatHist (hs : List HistLog) : List PurgePos :=
  hs.flatMap flatLog

/-- Records a parked rollback segment still has to deliver (none at all
when its `needs_purge` is zero — such logs are skipped as dummies). -/
def pendParked (r : PurgeRseg) : List PurgePos :=
  if r.needs_purge = 0 then [] else flatHist r.hist

/-- Records the active rollback segment still has to deliver, starting at
the cursor. -/
def pendActive (s : PurgeState) : List PurgePos :=
  match s.rseg with
  | none => []
  | some r =>
    if r.needs_purge = 0 then []
    else if s.next_stored && !s.offset0 then
      s.curRecs.map (fun u => ⟨(r.hist.headD ⟨0, []⟩).trx_no, u⟩) ++ flatHist r.hist.tail
    else flatHist r.hist

/-- Pending records of the active segment, attributed to its id. -/
def Pactive (s : PurgeState) (i : Nat) : List PurgePos :=
  match s.rseg with
  | some r => if r.id = i then pendActive s else []
  | none => []

/-- All records rollback segment `i` still has to deliver, in delivery
order. -/
def Ppend (s : PurgeState) (i : Nat) : List PurgePos :=
  ((parkedRsegs s).filter (fun r => r.id == i)).flatMap pendParked ++ Pactive s i

/-- The records fetched for rollback segment `i`, in fetch order. -/
def emsFor (i : Nat) (ems : List (Nat × PurgePos)) : List PurgePos :=
  (ems.filter (fun e => e.1 == i)).map (fun e => e.2)

/-- State invariant of the purge fetch machinery, holding between
fetches: when nothing is stored the active-segment pointer has been
cleared; a stored dummy position (`offset = 0`) means the current log
has no records to deliver; and a rollback segment is referenced from at
most one place (the C++ queue holds pointers; a segment sits in the
queue, in the iterator group, or behind `purge_sys.rseg`). -/
structure PInv (s : PurgeState) : Prop where
  not_ns : s.next_stored = false → s.rseg = none
  off0_shape : s.next_stored = true → s.offset0 = true →
    ∃ r, s.rseg = some r ∧
      (r.needs_purge ≠ 0 → ∀ log, r.hist.head? = some log → log.recs = [])
  cursor : s.next_stored = true → s.offset0 = false →
    ∃ r, s.rseg = some r ∧ r.needs_purge ≠ 0
  uniq : (((parkedRsegs s ++ activeList s).map (fun r => r.id))).Nodup

/-- The pending records of the rollback segment with id `i` among a
collection of parked segments. -/
def pendOf (l : List PurgeRseg) (i : Nat) : List PurgePos :=
  (l.filter (fun r => r.id == i)).flatMap pendParked

/-- The scan starting index used by `selectCandidate`:
`truncate.last->id - srv_undo_space_id_start`, or 0. -/
def selectStart (sys : UndoTruncSys) : Nat :=
  match sys.truncate_last with
  | some lastId => lastId - sys.srv_undo_space_id_start
  | none => 0

/-- Cursor consistency between fetches: when a real record is stored
(`next_stored` and a nonzero `offset`), the tail's trx_no is the commit
number of the active rollback segment's current (oldest pending) log —
the log whose record the cursor points into. -/
def TailSync (s : PurgeState) : Prop :=
  s.next_stored = true → s.offset0 = false →
    ∃ r log t, s.rseg = some r ∧ r.hist = log :: t ∧ s.tail.trx_no = log.trx_no

/-- The worker-bucket contribution of one fetch result: a real record is
bucketed, the dummy is dropped. -/
def resRecs : FetchRes → List (Nat × PurgePos)
  | .dummy => []
  | .undoRec j p => [(j, p)]

/-- The worker-bucket contribution of one `trx_purge_fetch_next_rec`
outcome. -/
def oresRecs : Option FetchRes → List (Nat × PurgePos)
  | none => []
  | some fr => resRecs fr

/-! ### Theorems -/

theorem posLe_def (a b : PurgePos) :
    a ≤ b ↔ (a.trx_no < b.trx_no ∨ (a.trx_no = b.trx_no ∧ a.undo_no ≤ b.undo_no)) :=
  Iff.rfl

theorem posLe_refl (a : PurgePos) : a ≤ a :=
  Or.inr ⟨rfl, Nat.le_refl _⟩

theorem posLe_trans {a b c : PurgePos} (h1 : a ≤ b) (h2 : b ≤ c) : a ≤ c := by
  rcases h1 with h1 | ⟨e1, u1⟩
  · rcases h2 with h2 | ⟨e2, _⟩
    · exact Or.inl (Nat.lt_trans h1 h2)
    · exact Or.inl (e2 ▸ h1)
  · rcases h2 with h2 | ⟨e2, u2⟩
    · exact Or.inl (e1 ▸ h2)
    · exact Or.inr ⟨e1.trans e2, Nat.le_trans u1 u2⟩

theorem popMinBy_eq_none {α : Type} (key : α → Nat) (l : List α) :
    popMinBy key l = none ↔ l = [] := by
  induction l with
  | nil => simp [popMinBy]
  | cons g gs ih =>
    simp only [popMinBy]
    cases h : popMinBy key gs with
    | none => simp
    | some p =>
      cases p with
      | mk m rest => by_cases hk : key g ≤ key m <;> simp [hk]

theorem popMinBy_mem {α : Type} (key : α → Nat) {l : List α} {g : α} {rest : List α}
    (h : popMinBy key l = some (g, rest)) : g ∈ l := by
  induction l generalizing g rest with
  | nil => simp [popMinBy] at h
  | cons a as ih =>
    simp only [popMinBy] at h
    cases hp : popMinBy key as with
    | none =>
      rw [hp] at h
      simp at h
      simp [h.1]
    | some p =>
      cases p with
      | mk m r2 =>
        rw [hp] at h
        by_cases hk : key a ≤ key m <;> simp [hk] at h
        · simp [h.1]
        · exact List.mem_cons_of_mem _ (ih (hp.trans (by rw [h.1])))

theorem popMinBy_perm {α : Type} (key : α → Nat) {l : List α} {g : α} {rest : List α}
    (h : popMinBy key l = some (g, rest)) : l.Perm (g :: rest) := by
  induction l generalizing g rest with
  | nil => simp [popMinBy] at h
  | cons a as ih =>
    simp only [popMinBy] at h
    cases hp : popMinBy key as with
    | none =>
      rw [hp] at h
      simp at h
      rw [h.1, h.2]
    | some p =>
      cases p with
      | mk m r2 =>
        rw [hp] at h
        by_cases hk : key a ≤ key m <;> simp [hk] at h
        · rw [h.1, h.2]
        · rw [← h.1, ← h.2]
          exact ((ih hp).cons a).trans (List.Perm.swap _ _ _)

/-- C3 counterexample: the claim says the effective head "is promoted to
low_limit_no when head is behind the floor"; with `head = (5,3)` strictly
behind the floor `low_limit_no = 10`, `trx_purge_truncate_history` leaves
the head at (5,3) — it is not promoted. -/
theorem clampHead_behind_not_promoted_cex :
    clampHead ⟨5, 3⟩ ⟨7, 1⟩ 10 = ⟨5, 3⟩ ∧ clampHead ⟨5, 3⟩ ⟨7, 1⟩ 10 ≠ ⟨10, 0⟩ := by
  decide

/-- C3 (amended): the effective head (head itself, or tail when
`head.trx_no` is zero) is clamped down to exactly (low_limit_no, 0)
whenever it is at or past the floor, is left unchanged when it is nonzero
and strictly behind the floor (no promotion), and in all cases the
resulting head never exceeds the floor. -/
theorem clampHead_spec (head tail : PurgePos) (llno : Nat) :
    (clampHead head tail llno).trx_no ≤ llno ∧
    (llno ≤ (if head.trx_no ≠ 0 then head else tail).trx_no →
      clampHead head tail llno = ⟨llno, 0⟩) ∧
    (head.trx_no ≠ 0 → head.trx_no < llno → clampHead head tail llno = head) := by
  have hdef : clampHead head tail llno =
      (if llno ≤ (if head.trx_no ≠ 0 then head else tail).trx_no then ⟨llno, 0⟩
       else (if head.trx_no ≠ 0 then head else tail)) := rfl
  refine ⟨?_, fun hge => ?_, fun h0 hlt => ?_⟩
  · rw [hdef]
    split_ifs <;> first | exact Nat.le_refl _ | omega
  · rw [hdef, if_pos hge]
  · rw [hdef]
    have h1 : (if head.trx_no ≠ 0 then head else tail) = head := if_pos h0
    rw [h1, if_neg (by omega)]

/-- C3 witness: `clampHead_spec` applied at a concrete head past the
floor. -/
theorem clampHead_spec_witness :
    (clampHead ⟨12, 3⟩ ⟨12, 3⟩ 10).trx_no ≤ 10 ∧ clampHead ⟨12, 3⟩ ⟨12, 3⟩ 10 = ⟨10, 0⟩ :=
  ⟨(clampHead_spec ⟨12, 3⟩ ⟨12, 3⟩ 10).1,
   (clampHead_spec ⟨12, 3⟩ ⟨12, 3⟩ 10).2.1 (by decide)⟩

/-- C4: `TrxUndoRsegsIterator::set_next` returns false exactly when the
current group is exhausted and the purge queue is empty, clearing
`purge_sys.rseg` in that case; advancing within the same group rolls
`tail.trx_no` back to the next segment's `last_trx_no()` before re-use;
and every successful advance leaves `tail.trx_no` equal to the chosen
segment's last commit number. -/
theorem set_next_contract (s : PurgeState) (hq : ∀ g ∈ s.queue, g.rsegs ≠ []) :
    ((set_next s).2 = false ↔ s.grp = [] ∧ s.queue = []) ∧
    ((set_next s).2 = false → (set_next s).1.rseg = none) ∧
    (∀ r rest, s.grp = r :: rest →
      set_next s = (activateRseg s r rest, true) ∧
      (activateRseg s r rest).tail.trx_no = r.last_trx_no) ∧
    ((set_next s).2 = true → ∃ r, (set_next s).1.rseg = some r ∧
      (set_next s).1.tail.trx_no = r.last_trx_no) := by
  cases hg : s.grp with
  | cons r rest =>
    have hsn : set_next s = (activateRseg s r rest, true) := by
      simp [set_next, hg]
    refine ⟨?_, ?_, ?_, ?_⟩
    · rw [hsn]
      simp [hg]
    · rw [hsn]
      simp
    · intro r' rest' hg'
      rw [List.cons.injEq] at hg'
      obtain ⟨rfl, rfl⟩ := hg'
      exact ⟨hsn, rfl⟩
    · intro _
      rw [hsn]
      exact ⟨r, by simp [activateRseg], by simp [activateRseg]⟩
  | nil =>
    cases hp : popMinBy (fun g => g.trx_no) s.queue with
    | none =>
      have hqe : s.queue = [] := (popMinBy_eq_none _ _).mp hp
      have hsn : set_next s = ({ s with rseg := none }, false) := by
        simp [set_next, hg, hp]
      refine ⟨?_, ?_, ?_, ?_⟩
      · rw [hsn]
        simp [hg, hqe]
      · intro _
        rw [hsn]
      · intro r' rest' hg'
        exact absurd hg' (by simp)
      · intro hf
        rw [hsn] at hf
        simp at hf
    | some p =>
      cases p with
      | mk g q =>
        have hgne : g.rsegs ≠ [] := hq g (popMinBy_mem _ hp)
        cases hgr : g.rsegs with
        | nil => exact absurd hgr hgne
        | cons r rest =>
          have hsn : set_next s = (activateRseg { s with queue := q } r rest, true) := by
            simp [set_next, hg, hp, hgr]
          have hqne : s.queue ≠ [] := by
            intro hqe
            rw [hqe] at hp
            simp [popMinBy] at hp
          refine ⟨?_, ?_, ?_, ?_⟩
          · rw [hsn]
            simp [hqne]
          · intro hf
            rw [hsn] at hf
            simp at hf
          · intro r' rest' hg'
            exact absurd hg' (by simp)
          · intro _
            rw [hsn]
            exact ⟨r, by simp [activateRseg], by simp [activateRseg]⟩

/-- C4 witness: `set_next_contract` applied to a state with an empty
group and a one-group queue. -/
theorem set_next_contract_witness :
    ((set_next ⟨[⟨4, [⟨9, 0, [⟨4, [1]⟩], 1⟩]⟩], [], none, [], true, ⟨0, 0⟩, ⟨0, 0⟩,
        false, 10, 0⟩).2 = false ↔
      ([] : List PurgeRseg) = [] ∧
      ([⟨4, [⟨9, 0, [⟨4, [1]⟩], 1⟩]⟩] : List TrxUndoRsegs) = []) ∧
    ((set_next ⟨[⟨4, [⟨9, 0, [⟨4, [1]⟩], 1⟩]⟩], [], none, [], true, ⟨0, 0⟩, ⟨0, 0⟩,
        false, 10, 0⟩).2 = false →
      (set_next ⟨[⟨4, [⟨9, 0, [⟨4, [1]⟩], 1⟩]⟩], [], none, [], true, ⟨0, 0⟩, ⟨0, 0⟩,
        false, 10, 0⟩).1.rseg = none) := by
  have h := set_next_contract
    ⟨[⟨4, [⟨9, 0, [⟨4, [1]⟩], 1⟩]⟩], [], none, [], true, ⟨0, 0⟩, ⟨0, 0⟩, false, 10, 0⟩
    (by decide)
  exact ⟨h.1, h.2.1⟩

theorem truncHistLoop_all_false (limit : PurgePos) (hist : List HistEntry)
    (cs hs freed rem : Nat) (ts : List (Nat × Nat)) :
    (truncHistLoop limit false hist cs hs freed rem ts).hist = hist ∧
    (truncHistLoop limit false hist cs hs freed rem ts).curr_size = cs ∧
    (truncHistLoop limit false hist cs hs freed rem ts).hist_size = hs ∧
    (truncHistLoop limit false hist cs hs freed rem ts).freed_pages = freed ∧
    (truncHistLoop limit false hist cs hs freed rem ts).removed = rem := by
  cases hist with
  | nil => exact ⟨rfl, rfl, rfl, rfl, rfl⟩
  | cons e rest =>
    by_cases hle : limit.trx_no ≤ e.trx_no
    · by_cases heq : e.trx_no = limit.trx_no <;>
        simp [truncHistLoop, hle, heq]
    · simp [truncHistLoop, hle]

theorem truncHistLoop_true_spec (limit : PurgePos) (hist : List HistEntry) :
    ∀ cs hs freed rem ts,
    truncHistLoop limit true hist cs hs freed rem ts =
      ⟨hist.dropWhile (fun e => decide (e.trx_no < limit.trx_no)),
       cs - freedSpecOf limit hist,
       hs - freedSpecOf limit hist,
       freed + freedSpecOf limit hist,
       rem + (hist.takeWhile (fun e => decide (e.trx_no < limit.trx_no))).length,
       ts ++ (match hist.dropWhile (fun e => decide (e.trx_no < limit.trx_no)) with
              | [] => []
              | e :: _ =>
                if e.trx_no = limit.trx_no then [(e.trx_no, limit.undo_no)] else [])⟩ := by
  induction hist with
  | nil =>
    intro cs hs freed rem ts
    simp [truncHistLoop, freedSpecOf]
  | cons e rest ih =>
    intro cs hs freed rem ts
    by_cases hle : limit.trx_no ≤ e.trx_no
    · have hd : decide (e.trx_no < limit.trx_no) = false := by
        simp
        omega
      by_cases heq : e.trx_no = limit.trx_no <;>
        simp [truncHistLoop, hle, heq, hd, freedSpecOf, List.takeWhile_cons, List.dropWhile_cons]
    · have hlt : e.trx_no < limit.trx_no := by omega
      have hd : decide (e.trx_no < limit.trx_no) = true := by
        simp [hlt]
      by_cases hfree : e.to_purge = true ∧ e.next_log = false
      · have hfb : (e.to_purge && !e.next_log) = true := by
          simp [hfree.1, hfree.2]
        have hspec : freedSpecOf limit (e :: rest) = e.seg_size + freedSpecOf limit rest := by
          simp [freedSpecOf, List.takeWhile_cons, hd, List.filter_cons, hfb]
        rw [show truncHistLoop limit true (e :: rest) cs hs freed rem ts =
              truncHistLoop limit true rest (cs - e.seg_size) (hs - e.seg_size)
                (freed + e.seg_size) (rem + 1) ts by
            simp [truncHistLoop, hle, hfree, trx_purge_free_segment]]
        rw [ih]
        simp only [hspec, List.dropWhile_cons, hd, List.takeWhile_cons, if_true,
                   List.length_cons, TruncHistResult.mk.injEq]
        and_intros <;> first | trivial | omega
      · have hfb : (e.to_purge && !e.next_log) = false := by
          cases hp : e.to_purge <;> cases hn : e.next_log <;> simp_all
        have hspec : freedSpecOf limit (e :: rest) = freedSpecOf limit rest := by
          simp [freedSpecOf, List.takeWhile_cons, hd, List.filter_cons, hfb]
        rw [show truncHistLoop limit true (e :: rest) cs hs freed rem ts =
              truncHistLoop limit true rest cs hs freed (rem + 1) ts by
            simp [truncHistLoop, hle, hfree]]
        rw [ih]
        simp only [hspec, List.dropWhile_cons, hd, List.takeWhile_cons, if_true,
                   List.length_cons, TruncHistResult.mk.injEq]
        and_intros <;> first | trivial | omega

theorem dropWhile_eq_filter_of_sorted (hist : List HistEntry) (L : Nat)
    (hsort : hist.Pairwise (fun a b => a.trx_no ≤ b.trx_no)) :
    hist.dropWhile (fun e => decide (e.trx_no < L))
      = hist.filter (fun e => decide (L ≤ e.trx_no)) := by
  induction hist with
  | nil => rfl
  | cons e rest ih =>
    rcases List.pairwise_cons.mp hsort with ⟨he, hrest⟩
    by_cases h : e.trx_no < L
    · have hd : decide (e.trx_no < L) = true := by simp [h]
      have hf : decide (L ≤ e.trx_no) = false := by simp; omega
      simp only [List.dropWhile_cons, List.filter_cons, hd, hf, if_true, Bool.false_eq_true,
                 if_false]
      exact ih hrest
    · have hd : decide (e.trx_no < L) = false := by simp; omega
      have hf : decide (L ≤ e.trx_no) = true := by simp; omega
      simp only [List.dropWhile_cons, List.filter_cons, hd, hf, Bool.false_eq_true, if_false,
                 if_true]
      rw [List.filter_eq_self.mpr]
      intro x hx
      have := he x hx
      simp
      omega

/-- C2 counterexample: the claim says the truncate phase removes, for
every rollback segment, every history entry with trx_no strictly below
the floor; but for a rollback segment with `trx_ref_count = 1` the
per-segment call computes `all = false` and removes nothing — here the
single entry has trx_no 1, far below the floor trx_no 10, yet the
history list and the removal counter are unchanged. -/
theorem trx_purge_truncate_referenced_rseg_cex :
    (truncateHistoryRseg ⟨10, 0⟩ 20 ⟨[⟨1, true, false, 1⟩], 2, 1, 1, 0⟩).hist
        = [⟨1, true, false, 1⟩] ∧
    (truncateHistoryRseg ⟨10, 0⟩ 20 ⟨[⟨1, true, false, 1⟩], 2, 1, 1, 0⟩).removed = 0 := by
  decide

/-- C2 (amended): for a rollback segment with no active transaction
reference and whose `needs_purge` the floor has passed (so the caller
passes `all = true`), and whose history list is in commit order,
`trx_purge_truncate_rseg_history` removes exactly the entries with
trx_no strictly below the floor's trx_no, keeps every entry at or above
it untouched, and applies `trx_undo_truncate_start` (partial truncation
up to the floor's undo_no) exactly to the first surviving entry when its
trx_no equals the floor's. -/
theorem trx_purge_truncate_rseg_history_below_floor
    (h : PurgePos) (llno : Nat) (rseg : trx_rseg_t)
    (href : rseg.trx_ref_count = 0) (hsees : rseg.needs_purge < llno)
    (hsort : rseg.hist.Pairwise (fun a b => a.trx_no ≤ b.trx_no)) :
    (truncateHistoryRseg h llno rseg).hist
        = rseg.hist.filter (fun e => decide (h.trx_no ≤ e.trx_no)) ∧
    (truncateHistoryRseg h llno rseg).trunc_start
        = (match (truncateHistoryRseg h llno rseg).hist with
           | [] => []
           | e :: _ => if e.trx_no = h.trx_no then [(e.trx_no, h.undo_no)] else []) := by
  have hall : ((rseg.trx_ref_count == 0) && purge_sees llno rseg.needs_purge) = true := by
    simp [href, purge_sees, hsees]
  unfold truncateHistoryRseg trx_purge_truncate_rseg_history
  rw [hall, truncHistLoop_true_spec]
  refine ⟨?_, ?_⟩
  · exact dropWhile_eq_filter_of_sorted _ _ hsort
  · simp

/-- C2 witness: `trx_purge_truncate_rseg_history_below_floor` applied to
a quiescent rollback segment with one below-floor entry. -/
theorem trx_purge_truncate_rseg_history_below_floor_witness :
    (truncateHistoryRseg ⟨5, 2⟩ 9 ⟨[⟨1, true, false, 1⟩], 10, 9, 0, 0⟩).hist = [] := by
  have h := trx_purge_truncate_rseg_history_below_floor ⟨5, 2⟩ 9
      ⟨[⟨1, true, false, 1⟩], 10, 9, 0, 0⟩ (by decide) (by decide) (by decide)
  rw [h.1]
  decide

/-- C5: during history truncation a whole undo log segment is freed only
when the caller established quiescence (`trx_ref_count = 0` and the
floor past `needs_purge`, i.e. `all = true`); the pages freed are
exactly those of the walked below-floor entries in state
`TRX_UNDO_TO_PURGE` with no successor log; and `curr_size` and the
`TRX_RSEG_HISTORY_SIZE` field each decrease by exactly that page
count. -/
theorem trx_purge_free_segment_conditions (h : PurgePos) (llno : Nat) (rseg : trx_rseg_t) :
    ((truncateHistoryRseg h llno rseg).freed_pages ≠ 0 →
      rseg.trx_ref_count = 0 ∧ rseg.needs_purge < llno) ∧
    (rseg.trx_ref_count = 0 → rseg.needs_purge < llno →
      (truncateHistoryRseg h llno rseg).freed_pages = freedSpecOf h rseg.hist ∧
      (truncateHistoryRseg h llno rseg).curr_size
          = rseg.curr_size - freedSpecOf h rseg.hist ∧
      (truncateHistoryRseg h llno rseg).hist_size
          = rseg.hist_size - freedSpecOf h rseg.hist) := by
  constructor
  · intro hne
    by_contra hc
    have hall : ((rseg.trx_ref_count == 0) && purge_sees llno rseg.needs_purge) = false := by
      by_cases h1 : rseg.trx_ref_count = 0
      · have h2 : ¬ rseg.needs_purge < llno := fun h2 => hc ⟨h1, h2⟩
        simp [purge_sees, h2]
      · simp [h1]
    unfold truncateHistoryRseg trx_purge_truncate_rseg_history at hne
    rw [hall] at hne
    exact hne (truncHistLoop_all_false h rseg.hist _ _ _ _ _).2.2.2.1
  · intro h1 h2
    have hall : ((rseg.trx_ref_count == 0) && purge_sees llno rseg.needs_purge) = true := by
      simp [h1, purge_sees, h2]
    unfold truncateHistoryRseg trx_purge_truncate_rseg_history
    rw [hall, truncHistLoop_true_spec]
    exact ⟨by simp, rfl, rfl⟩

/-- C5 witness: `trx_purge_free_segment_conditions` at a quiescent
rollback segment whose single below-floor TO_PURGE entry is freed. -/
theorem trx_purge_free_segment_conditions_witness :
    (truncateHistoryRseg ⟨10, 0⟩ 20 ⟨[⟨1, true, false, 3⟩], 5, 4, 0, 0⟩).freed_pages
        = freedSpecOf ⟨10, 0⟩ [⟨1, true, false, 3⟩] ∧
    (truncateHistoryRseg ⟨10, 0⟩ 20 ⟨[⟨1, true, false, 3⟩], 5, 4, 0, 0⟩).curr_size = 5 - 3 := by
  have h := (trx_purge_free_segment_conditions ⟨10, 0⟩ 20
      ⟨[⟨1, true, false, 3⟩], 5, 4, 0, 0⟩).2 (by decide) (by decide)
  refine ⟨h.1, ?_⟩
  rw [h.2.1]
  decide

theorem selectCandidate_eq (sys : UndoTruncSys) :
    selectCandidate sys
      = selectLoop sys (selectStart sys) (selectStart sys) sys.srv_undo_tablespaces_active := by
  unfold selectCandidate selectStart
  cases sys.truncate_last <;> rfl

theorem selectLoop_sound (sys : UndoTruncSys) (j : Nat)
    (hact : 0 < sys.srv_undo_tablespaces_active) :
    ∀ fuel i sid, i < sys.srv_undo_tablespaces_active →
      selectLoop sys j i fuel = some sid →
      sys.threshold < sys.spaces sid ∧
      sys.srv_undo_space_id_start ≤ sid ∧
      sid < sys.srv_undo_space_id_start + sys.srv_undo_tablespaces_active := by
  intro fuel
  induction fuel with
  | zero => intro i sid _ h; simp [selectLoop] at h
  | succ fuel ih =>
    intro i sid hi h
    rw [selectLoop] at h
    by_cases hover : sys.threshold < sys.spaces (sys.srv_undo_space_id_start + i)
    · rw [if_pos hover] at h
      cases h
      exact ⟨hover, Nat.le_add_right _ _, by omega⟩
    · rw [if_neg hover] at h
      by_cases hw : (i + 1) % sys.srv_undo_tablespaces_active = j
      · rw [if_pos hw] at h
        simp at h
      · rw [if_neg hw] at h
        exact ih _ _ (Nat.mod_lt _ hact) h

theorem selectLoop_none_of_all_small (sys : UndoTruncSys) (j : Nat)
    (hall : ∀ k, k < sys.srv_undo_tablespaces_active →
      sys.spaces (sys.srv_undo_space_id_start + k) ≤ sys.threshold) :
    ∀ fuel i, i < sys.srv_undo_tablespaces_active → selectLoop sys j i fuel = none := by
  intro fuel
  induction fuel with
  | zero => intro i _; rfl
  | succ fuel ih =>
    intro i hi
    rw [selectLoop]
    rw [if_neg (by have := hall i hi; omega)]
    by_cases hw : (i + 1) % sys.srv_undo_tablespaces_active = j
    · rw [if_pos hw]
    · rw [if_neg hw]
      exact ih _ (Nat.mod_lt _ (by omega))

theorem add_mod_eq_self_iff (j t A : Nat) (hj : j < A) :
    (j + t) % A = j ↔ t % A = 0 := by
  have hA : 0 < A := Nat.lt_of_le_of_lt (Nat.zero_le j) hj
  have h1 : (j + t) % A = (j + t % A) % A := by
    rw [Nat.add_mod, Nat.mod_eq_of_lt hj]
  have ht : t % A < A := Nat.mod_lt t hA
  rw [h1]
  rcases Nat.lt_or_ge (j + t % A) A with hc | hc
  · rw [Nat.mod_eq_of_lt hc]
    omega
  · have h2 : (j + t % A) % A = j + t % A - A := by
      rw [Nat.mod_eq_sub_mod hc, Nat.mod_eq_of_lt (by omega)]
    rw [h2]
    omega

theorem selectLoop_first_match (sys : UndoTruncSys) (j : Nat)
    (hj : j < sys.srv_undo_tablespaces_active) :
    ∀ fuel c m, c + fuel = sys.srv_undo_tablespaces_active →
      c ≤ m → m < sys.srv_undo_tablespaces_active →
      (∀ k, c ≤ k → k < m →
        sys.spaces (sys.srv_undo_space_id_start
          + (j + k) % sys.srv_undo_tablespaces_active) ≤ sys.threshold) →
      sys.threshold < sys.spaces (sys.srv_undo_space_id_start
        + (j + m) % sys.srv_undo_tablespaces_active) →
      selectLoop sys j ((j + c) % sys.srv_undo_tablespaces_active) fuel
        = some (sys.srv_undo_space_id_start
            + (j + m) % sys.srv_undo_tablespaces_active) := by
  intro fuel
  induction fuel with
  | zero =>
    intro c m hcf hcm hm _ _
    omega
  | succ fuel ih =>
    intro c m hcf hcm hm hsmall hover
    rw [selectLoop]
    by_cases hcme : c = m
    · subst hcme
      rw [if_pos hover]
    · have hclt : c < m := Nat.lt_of_le_of_ne hcm hcme
      rw [if_neg (by have := hsmall c (Nat.le_refl c) hclt; omega)]
      have hstep : ((j + c) % sys.srv_undo_tablespaces_active + 1)
          % sys.srv_undo_tablespaces_active
          = (j + (c + 1)) % sys.srv_undo_tablespaces_active := by
        rw [Nat.mod_add_mod, Nat.add_assoc]
      rw [hstep]
      rw [if_neg (by
        rw [add_mod_eq_self_iff _ _ _ hj]
        intro h0
        rw [Nat.mod_eq_of_lt (by omega : c + 1 < sys.srv_undo_tablespaces_active)] at h0
        omega)]
      exact ih (c + 1) m (by omega) (by omega) hm
        (fun k hk1 hk2 => hsmall k (by omega) hk2) hover

/-- C7 counterexample: both undo tablespaces (ids 1 and 2, with
`srv_undo_space_id_start = 1` and two active spaces) are oversized
(2000 pages against a threshold of 1000), and the last-truncated
tablespace was id 1.  A scan "starting after the last-truncated one"
would select id 2; the code's scan starts at the last-truncated
tablespace itself and selects id 1. -/
theorem selectCandidate_starts_at_last_cex :
    selectCandidate ⟨fun _ => 2000, [], none, some 1, ⟨0, 0⟩, 0, false, false, false,
        0, 1, 2, 1000⟩ = some 1 ∧ (1000 : Nat) < 2000 := by
  exact ⟨rfl, by norm_num⟩

theorem truncateSpace_cases (minSize : Nat) (sys : UndoTruncSys) (sid : Nat) :
    (∀ t, truncateSpace minSize sys sid = .earlyReturn t →
      t.truncate_current = sys.truncate_current) ∧
    (∀ sid2 t, truncateSpace minSize sys sid = .success sid2 t →
      sid2 = sid ∧ t.truncate_last = some sid ∧ t.truncate_current = none) ∧
    (∀ t, truncateSpace minSize sys sid ≠ .done t) := by
  unfold truncateSpace
  rcases hq : quiesceLoop sys.head sys.low_limit_no sys.srv_fast_shutdown
      sys.srv_undo_sources sys.rseg_history_len sid sys.rsegs with ⟨rs, ok⟩
  cases ok with
  | false =>
    refine ⟨?_, ?_, ?_⟩
    · intro t h
      simp at h
      rw [← h]
    · intro sid2 t h
      simp at h
    · intro t h
      simp at h
  | true =>
    by_cases hsh : sys.srv_shutdown && sys.srv_fast_shutdown
    · refine ⟨?_, ?_, ?_⟩
      · intro t h
        simp [hsh] at h
        rw [← h]
      · intro sid2 t h
        simp [hsh] at h
      · intro t h
        simp [hsh] at h
    · refine ⟨?_, ?_, ?_⟩
      · intro t h
        simp [hsh] at h
      · intro sid2 t h
        simp [hsh] at h
        exact ⟨h.1.symm, by rw [← h.2], by rw [← h.2]⟩
      · intro t h
        simp [hsh] at h

/-- C7 counterexample is `selectCandidate_starts_at_last_cex`.  C7
(amended): with no candidate already selected, the scan probes the
active undo tablespaces round-robin starting AT the last-truncated one
(not after it), selects the FIRST one in that cyclic order whose page
count exceeds the threshold (conjunct 6: if every space probed before
cyclic offset m is small and the space at offset m is oversized, the
space at offset m is selected), and returns none when a full cycle
finds none oversized; an early return of the truncation step leaves
`truncate.current` as it was (set, so the same tablespace is retried),
and a successful truncation sets `truncate.last` to the truncated
tablespace and clears `truncate.current`. -/
theorem truncate_candidate_round_robin (minSize : Nat) (sys : UndoTruncSys)
    (hact : 0 < sys.srv_undo_tablespaces_active)
    (hj : selectStart sys < sys.srv_undo_tablespaces_active) :
    (∀ sid, selectCandidate sys = some sid →
      sys.threshold < sys.spaces sid ∧
      sys.srv_undo_space_id_start ≤ sid ∧
      sid < sys.srv_undo_space_id_start + sys.srv_undo_tablespaces_active) ∧
    ((∀ k, k < sys.srv_undo_tablespaces_active →
        sys.spaces (sys.srv_undo_space_id_start + k) ≤ sys.threshold) →
      selectCandidate sys = none) ∧
    (∀ l, sys.truncate_last = some l → sys.srv_undo_space_id_start ≤ l →
      sys.threshold < sys.spaces l → selectCandidate sys = some l) ∧
    (∀ t, truncateStep minSize sys = .earlyReturn t → t.truncate_current ≠ none) ∧
    (∀ sid t, truncateStep minSize sys = .success sid t →
      t.truncate_last = some sid ∧ t.truncate_current = none) ∧
    (∀ m, m < sys.srv_undo_tablespaces_active →
      (∀ k, k < m → sys.spaces (sys.srv_undo_space_id_start
        + (selectStart sys + k) % sys.srv_undo_tablespaces_active) ≤ sys.threshold) →
      sys.threshold < sys.spaces (sys.srv_undo_space_id_start
        + (selectStart sys + m) % sys.srv_undo_tablespaces_active) →
      selectCandidate sys = some (sys.srv_undo_space_id_start
        + (selectStart sys + m) % sys.srv_undo_tablespaces_active)) := by
  refine ⟨?_, ?_, ?_, ?_, ?_, ?_⟩
  · intro sid h
    rw [selectCandidate_eq] at h
    exact selectLoop_sound sys _ hact _ _ _ hj h
  · intro hall
    rw [selectCandidate_eq]
    exact selectLoop_none_of_all_small sys _ hall _ _ hj
  · intro l hl hge hover
    rw [selectCandidate_eq]
    have hstart : selectStart sys = l - sys.srv_undo_space_id_start := by
      unfold selectStart
      rw [hl]
    cases hfa : sys.srv_undo_tablespaces_active with
    | zero => omega
    | succ n =>
      rw [hstart, selectLoop]
      rw [Nat.add_sub_cancel' hge, if_pos hover]
  · intro t h
    unfold truncateStep at h
    cases hc : sys.truncate_current with
    | some sid =>
      rw [hc] at h
      have := (truncateSpace_cases minSize sys sid).1 t h
      rw [this, hc]
      simp
    | none =>
      rw [hc] at h
      cases hs : selectCandidate sys with
      | none => rw [hs] at h; simp at h
      | some sid =>
        rw [hs] at h
        have := (truncateSpace_cases minSize { sys with truncate_current := some sid } sid).1 t h
        rw [this]
        simp
  · intro sid t h
    unfold truncateStep at h
    cases hc : sys.truncate_current with
    | some sid1 =>
      rw [hc] at h
      have := (truncateSpace_cases minSize sys sid1).2.1 sid t h
      exact ⟨this.1 ▸ this.2.1, this.2.2⟩
    | none =>
      rw [hc] at h
      cases hs : selectCandidate sys with
      | none => rw [hs] at h; simp at h
      | some sid1 =>
        rw [hs] at h
        have := (truncateSpace_cases minSize
            { sys with truncate_current := some sid1 } sid1).2.1 sid t h
        exact ⟨this.1 ▸ this.2.1, this.2.2⟩
  · intro m hm hsmall hover
    rw [selectCandidate_eq]
    have h6 := selectLoop_first_match sys (selectStart sys) hj
      sys.srv_undo_tablespaces_active 0 m (by omega) (Nat.zero_le m) hm
      (fun k _ hk2 => hsmall k hk2) hover
    rw [Nat.add_zero, Nat.mod_eq_of_lt hj] at h6
    exact h6

/-- C7 witness: `truncate_candidate_round_robin` applied to a
two-tablespace system (ids 1 and 2): the last-truncated space 1 has
shrunk to 500 pages while space 2 holds 2000 against a threshold of
1000, so the scan starts at space 1, skips it as small, and selects
space 2 — the first oversized tablespace in cyclic order. -/
theorem truncate_candidate_round_robin_witness :
    selectCandidate ⟨fun s => if s = 2 then 2000 else 500, [], none, some 1, ⟨0, 0⟩,
        0, false, false, false, 0, 1, 2, 1000⟩ = some 2 := by
  have h := (truncate_candidate_round_robin 800
      ⟨fun s => if s = 2 then 2000 else 500, [], none, some 1, ⟨0, 0⟩,
        0, false, false, false, 0, 1, 2, 1000⟩
      (by norm_num) (by norm_num [selectStart])).2.2.2.2.2 1 (by norm_num)
      (fun k hk => by
        have hk0 : k = 0 := by omega
        subst hk0
        norm_num [selectStart])
      (by norm_num [selectStart])
  norm_num [selectStart] at h
  exact h

theorem quiesceLoop_other_spaces (h : PurgePos) (llno : Nat) (fast srcs : Bool)
    (histLen sid : Nat) :
    ∀ l : List TruncRseg,
      ((quiesceLoop h llno fast srcs histLen sid l).1).filter (fun r => r.space != sid)
        = l.filter (fun r => r.space != sid) := by
  intro l
  induction l with
  | nil => rfl
  | cons r rest ih =>
    rcases hrest : quiesceLoop h llno fast srcs histLen sid rest with ⟨rs2, ok2⟩
    rw [hrest] at ih
    simp only at ih
    by_cases hsp : r.space = sid
    · have hsb : (r.space != sid) = false := by simp [hsp]
      have hsb1 : (({ r with skip_allocation := true } : TruncRseg).space != sid) = false := by
        simp [hsp]
      unfold quiesceLoop
      rw [if_neg (by simp [hsp]), hrest]
      dsimp only
      split_ifs <;>
        simp only [List.filter_cons, hsb1, hsb, Bool.false_eq_true, if_false] <;>
        first
          | rfl
          | exact ih
    · unfold quiesceLoop
      rw [if_pos hsp, hrest]
      have hsb : (r.space != sid) = true := by simp [hsp]
      simp only [List.filter_cons, hsb, if_true]
      rw [ih]

theorem reinitMap_other_spaces (sid : Nat) :
    ∀ l : List TruncRseg,
      ((l.map (fun r => if r.space = sid then reinitRseg r else r)).filter
          (fun r => r.space != sid))
        = l.filter (fun r => r.space != sid) := by
  intro l
  induction l with
  | nil => rfl
  | cons r rest ih =>
    by_cases hsp : r.space = sid
    · have h1 : (if r.space = sid then reinitRseg r else r) = reinitRseg r := if_pos hsp
      have h2 : ((reinitRseg r).space != sid) = false := by simp [reinitRseg, hsp]
      have h3 : (r.space != sid) = false := by simp [hsp]
      simp only [List.map_cons, List.filter_cons, h1, h2, h3, Bool.false_eq_true, if_false]
      exact ih
    · have h1 : (if r.space = sid then reinitRseg r else r) = r := if_neg hsp
      have h3 : (r.space != sid) = true := by simp [hsp]
      simp only [List.map_cons, List.filter_cons, h1, h3, if_true]
      rw [ih]

theorem truncateSpace_success_reinit (minSize : Nat) (sys1 : UndoTruncSys) (sid : Nat)
    (t : UndoTruncSys) (h : truncateSpace minSize sys1 sid = .success sid t) :
    t.spaces sid = minSize ∧
    (∀ r ∈ t.rsegs, r.space = sid →
      r.curr_size = 1 ∧ r.trx_ref_count = 0 ∧ r.needs_purge = 0 ∧
      r.skip_allocation = false ∧ r.undo_cached = [] ∧
      r.last_page_no = none ∧ r.last_commit_and_offset = 0 ∧ r.hist_size = 0) ∧
    t.rsegs.filter (fun r => r.space != sid)
      = sys1.rsegs.filter (fun r => r.space != sid) := by
  unfold truncateSpace at h
  rcases hq : quiesceLoop sys1.head sys1.low_limit_no sys1.srv_fast_shutdown
      sys1.srv_undo_sources sys1.rseg_history_len sid sys1.rsegs with ⟨rs, ok⟩
  rw [hq] at h
  cases ok with
  | false => simp at h
  | true =>
    by_cases hsh : sys1.srv_shutdown && sys1.srv_fast_shutdown
    · simp [hsh] at h
    · simp only [hsh, Bool.false_eq_true, Bool.true_eq_false, if_false, if_true,
        TruncOutcome.success.injEq, eq_self_iff_true, true_and] at h
      subst h
      refine ⟨by simp, ?_, ?_⟩
      · intro r hrm hrsp
        simp only [List.mem_map] at hrm
        obtain ⟨r0, _, hr0⟩ := hrm
        by_cases hsp0 : r0.space = sid
        · rw [if_pos hsp0] at hr0
          rw [← hr0]
          simp [reinitRseg]
        · rw [if_neg hsp0] at hr0
          rw [← hr0] at hrsp
          exact absurd hrsp hsp0
      · simp only
        rw [reinitMap_other_spaces]
        have h2 := quiesceLoop_other_spaces sys1.head sys1.low_limit_no
            sys1.srv_fast_shutdown sys1.srv_undo_sources sys1.rseg_history_len sid
            sys1.rsegs
        rw [hq] at h2
        simp only at h2
        exact h2

/-- C8: a successful truncation pass over undo tablespace `sid` leaves
the tablespace at exactly the fixed minimum size
(`SRV_UNDO_TABLESPACE_SIZE_IN_PAGES`, the `minSize` parameter), and
every rollback segment residing in it is re-created with
`curr_size = 1`, `trx_ref_count = 0`, `needs_purge = 0`,
`skip_allocation = false`, an empty cached-segment list,
`last_page_no = FIL_NULL`, a zero `last_commit_and_offset` and a zero
history-size field — while rollback segments of other tablespaces are
untouched.  (The source performs the header re-creation inside the
single mini-transaction committed by `commit_shrink`; the embedding
performs it as one atomic state transition.) -/
theorem truncate_success_reinit (minSize : Nat) (sys : UndoTruncSys) (sid : Nat)
    (t : UndoTruncSys) (hs : truncateStep minSize sys = .success sid t) :
    t.spaces sid = minSize ∧
    (∀ r ∈ t.rsegs, r.space = sid →
      r.curr_size = 1 ∧ r.trx_ref_count = 0 ∧ r.needs_purge = 0 ∧
      r.skip_allocation = false ∧ r.undo_cached = [] ∧
      r.last_page_no = none ∧ r.last_commit_and_offset = 0 ∧ r.hist_size = 0) ∧
    t.rsegs.filter (fun r => r.space != sid)
      = sys.rsegs.filter (fun r => r.space != sid) := by
  unfold truncateStep at hs
  cases hc : sys.truncate_current with
  | some sid1 =>
    rw [hc] at hs
    have hsid := ((truncateSpace_cases minSize sys sid1).2.1 sid t hs).1
    subst hsid
    exact truncateSpace_success_reinit minSize sys sid t hs
  | none =>
    rw [hc] at hs
    cases hsel : selectCandidate sys with
    | none => rw [hsel] at hs; simp at hs
    | some sid1 =>
      rw [hsel] at hs
      have hsid := ((truncateSpace_cases minSize
          { sys with truncate_current := some sid1 } sid1).2.1 sid t hs).1
      subst hsid
      exact truncateSpace_success_reinit minSize { sys with truncate_current := some sid } sid t hs

/-- C8 witness: `truncate_success_reinit` applied to a quiescent
single-rseg undo tablespace at 2000 pages with threshold 1000. -/
theorem truncate_success_reinit_witness :
    ∃ t, truncateStep 800 ⟨fun _ => 2000, [⟨1, 1, 0, 0, false, [], some 3, 5, 7⟩],
        some 1, none, ⟨0, 0⟩, 10, false, false, false, 0, 1, 2, 1000⟩ = .success 1 t ∧
      t.spaces 1 = 800 ∧
      ∀ r ∈ t.rsegs, r.space = 1 → r.curr_size = 1 := by
  refine ⟨_, rfl, ?_, ?_⟩
  · exact (truncate_success_reinit 800 ⟨fun _ => 2000,
        [⟨1, 1, 0, 0, false, [], some 3, 5, 7⟩], some 1, none, ⟨0, 0⟩, 10, false, false,
        false, 0, 1, 2, 1000⟩ 1 _ rfl).1
  · intro r hr hsp
    exact ((truncate_success_reinit 800 ⟨fun _ => 2000,
        [⟨1, 1, 0, 0, false, [], some 3, 5, 7⟩], some 1, none, ⟨0, 0⟩, 10, false, false,
        false, 0, 1, 2, 1000⟩ 1 _ rfl).2.1 r hr hsp).1

theorem drainLoop_perm {α : Type} (key : α → Nat) :
    ∀ (n : Nat) (q : List α), q.length ≤ n → (drainLoop key n q).Perm q := by
  intro n
  induction n with
  | zero =>
    intro q hq
    have : q = [] := List.length_eq_zero.mp (Nat.le_zero.mp hq)
    rw [this]
    rfl
  | succ n ih =>
    intro q hq
    rw [drainLoop]
    cases hp : popMinBy key q with
    | none =>
      rw [(popMinBy_eq_none _ _).mp hp]
    | some p =>
      cases p with
      | mk g rest =>
        have hperm := popMinBy_perm key hp
        have hlen : rest.length ≤ n := by
          have := hperm.length_eq
          simp at this
          omega
        exact ((ih rest hlen).cons g).trans hperm.symm

theorem drainAll_perm {α : Type} (key : α → Nat) (q : List α) :
    (drainAll key q).Perm q :=
  drainLoop_perm key q.length q (Nat.le_refl _)

theorem cleanse_foldl_spec (sid : Nat) :
    ∀ (gs acc : List TrxUndoRsegs),
      gs.foldl
        (fun acc g =>
          let g1 : TrxUndoRsegs := ⟨g.trx_no, eraseFirstSpace sid g.rsegs⟩
          if g1.rsegs.isEmpty then acc else acc ++ [g1])
        acc
      = acc ++ gs.filterMap
          (fun g =>
            if (eraseFirstSpace sid g.rsegs).isEmpty then none
            else some ⟨g.trx_no, eraseFirstSpace sid g.rsegs⟩) := by
  intro gs
  induction gs with
  | nil => intro acc; simp
  | cons g gs ih =>
    intro acc
    rw [List.foldl_cons, List.filterMap_cons, ih]
    by_cases he : (eraseFirstSpace sid g.rsegs).isEmpty
    · simp only [he, if_true]
    · simp only [he, Bool.false_eq_true, if_false]
      rw [List.append_assoc]
      rfl

theorem eraseFirstSpace_no_target (sid : Nat) :
    ∀ l : List PurgeRseg,
      (l.filter (fun r => r.space == sid)).length ≤ 1 →
      ∀ r ∈ eraseFirstSpace sid l, r.space ≠ sid := by
  intro l
  induction l with
  | nil => intro _ r hr; simp [eraseFirstSpace] at hr
  | cons a l ih =>
    intro hcount r hr
    by_cases ha : a.space = sid
    · rw [show eraseFirstSpace sid (a :: l) = l by simp [eraseFirstSpace, ha]] at hr
      have hb : (a.space == sid) = true := by simp [ha]
      simp only [List.filter_cons, hb, eq_self_iff_true, if_true, List.length_cons] at hcount
      have hnil : l.filter (fun r => r.space == sid) = [] :=
        List.length_eq_zero.mp (by omega)
      intro hrs
      have : r ∈ l.filter (fun r => r.space == sid) :=
        List.mem_filter.mpr ⟨hr, by simp [hrs]⟩
      rw [hnil] at this
      simp at this
    · rw [show eraseFirstSpace sid (a :: l) = a :: eraseFirstSpace sid l by
          simp [eraseFirstSpace, ha]] at hr
      rcases List.mem_cons.mp hr with rfl | hr2
      · exact ha
      · have hb : (a.space == sid) = false := by simp [ha]
        rw [List.filter_cons, hb] at hcount
        simp only [Bool.false_eq_true, if_false] at hcount
        exact ih hcount r hr2

theorem eraseFirstSpace_mem_other (sid : Nat) :
    ∀ (l : List PurgeRseg) (r : PurgeRseg), r ∈ l → r.space ≠ sid →
      r ∈ eraseFirstSpace sid l := by
  intro l
  induction l with
  | nil => intro r hr; simp at hr
  | cons a l ih =>
    intro r hr hrs
    by_cases ha : a.space = sid
    · rw [show eraseFirstSpace sid (a :: l) = l by simp [eraseFirstSpace, ha]]
      rcases List.mem_cons.mp hr with rfl | hr2
      · exact absurd ha hrs
      · exact hr2
    · rw [show eraseFirstSpace sid (a :: l) = a :: eraseFirstSpace sid l by
          simp [eraseFirstSpace, ha]]
      rcases List.mem_cons.mp hr with rfl | hr2
      · exact List.mem_cons_self _ _
      · exact List.mem_cons_of_mem _ (ih r hr2 hrs)

/-- C10 counterexample: a queue group holding two rollback segments of
the tablespace being truncated (space 7).  The inner loop of
`trx_purge_cleanse_purge_queue` breaks after erasing the first match, so
the re-pushed group still references a rollback segment of space 7 —
contradicting the claim that afterwards no group references that
tablespace. -/
theorem cleanse_two_same_space_cex :
    trx_purge_cleanse_purge_queue 7 [⟨5, [⟨1, 7, [], 0⟩, ⟨2, 7, [], 0⟩]⟩]
      = [⟨5, [⟨2, 7, [], 0⟩]⟩] := by
  decide

/-- C10 (amended): `trx_purge_cleanse_purge_queue` drains the whole
queue and re-pushes each group after erasing from it the FIRST rollback
segment of the truncated tablespace (at most one per group); provided no
group holds two rollback segments of that tablespace, afterwards no
group references it; every rollback segment of another tablespace that
was in the queue is still in the queue (in a group with the same key),
and a group emptied by the erasure is not re-pushed. -/
theorem trx_purge_cleanse_purge_queue_spec (sid : Nat) (q : List TrxUndoRsegs)
    (h1 : ∀ g ∈ q, (g.rsegs.filter (fun r => r.space == sid)).length ≤ 1) :
    (∀ g ∈ trx_purge_cleanse_purge_queue sid q, ∀ r ∈ g.rsegs, r.space ≠ sid) ∧
    (∀ g ∈ q, ∀ r ∈ g.rsegs, r.space ≠ sid →
      ∃ g2 ∈ trx_purge_cleanse_purge_queue sid q, g2.trx_no = g.trx_no ∧ r ∈ g2.rsegs) ∧
    (∀ g ∈ trx_purge_cleanse_purge_queue sid q, g.rsegs ≠ []) := by
  have hval : trx_purge_cleanse_purge_queue sid q
      = (drainAll (fun g => g.trx_no) q).filterMap
          (fun g =>
            if (eraseFirstSpace sid g.rsegs).isEmpty then none
            else some ⟨g.trx_no, eraseFirstSpace sid g.rsegs⟩) := by
    unfold trx_purge_cleanse_purge_queue
    rw [cleanse_foldl_spec]
    rfl
  refine ⟨?_, ?_, ?_⟩
  · intro g hg r hr
    rw [hval] at hg
    obtain ⟨g0, hg0, hf⟩ := List.mem_filterMap.mp hg
    by_cases he : (eraseFirstSpace sid g0.rsegs).isEmpty
    · rw [if_pos he] at hf
      simp at hf
    · rw [if_neg he] at hf
      have hg0q : g0 ∈ q := (drainAll_perm (fun g => g.trx_no) q).mem_iff.mp hg0
      have := eraseFirstSpace_no_target sid g0.rsegs (h1 g0 hg0q) r
      apply this
      have : g.rsegs = eraseFirstSpace sid g0.rsegs := by
        rw [← Option.some_inj.mp hf]
      rw [← this]
      exact hr
  · intro g hg r hr hrs
    have hmem : r ∈ eraseFirstSpace sid g.rsegs := eraseFirstSpace_mem_other sid _ r hr hrs
    have hne : (eraseFirstSpace sid g.rsegs).isEmpty = false := by
      cases hers : eraseFirstSpace sid g.rsegs with
      | nil => rw [hers] at hmem; simp at hmem
      | cons _ _ => simp [hers]
    refine ⟨⟨g.trx_no, eraseFirstSpace sid g.rsegs⟩, ?_, rfl, hmem⟩
    rw [hval]
    refine List.mem_filterMap.mpr ⟨g, ?_, ?_⟩
    · exact (drainAll_perm (fun g => g.trx_no) q).mem_iff.mpr hg
    · rw [if_neg (by rw [hne]; simp)]
  · intro g hg
    rw [hval] at hg
    obtain ⟨g0, hg0, hf⟩ := List.mem_filterMap.mp hg
    by_cases he : (eraseFirstSpace sid g0.rsegs).isEmpty
    · rw [if_pos he] at hf
      simp at hf
    · rw [if_neg he] at hf
      have : g.rsegs = eraseFirstSpace sid g0.rsegs := by
        rw [← Option.some_inj.mp hf]
      rw [this]
      intro hnil
      rw [hnil] at he
      simp at he

/-- C10 witness: `trx_purge_cleanse_purge_queue_spec` on a queue with
one group holding one space-7 and one space-8 rollback segment,
specialised to the surviving group `⟨5, [⟨2, 8, [], 0⟩]⟩` of the
cleansed queue: its remaining rollback segment is not of space 7, and
the group was not re-pushed empty. -/
theorem trx_purge_cleanse_purge_queue_spec_witness :
    ((⟨2, 8, [], 0⟩ : PurgeRseg).space ≠ 7) ∧
    (([⟨2, 8, [], 0⟩] : List PurgeRseg) ≠ []) :=
  ⟨(trx_purge_cleanse_purge_queue_spec 7 [⟨5, [⟨1, 7, [], 0⟩, ⟨2, 8, [], 0⟩]⟩]
      (by decide)).1 ⟨5, [⟨2, 8, [], 0⟩]⟩ (by decide) ⟨2, 8, [], 0⟩ (by decide),
    (trx_purge_cleanse_purge_queue_spec 7 [⟨5, [⟨1, 7, [], 0⟩, ⟨2, 8, [], 0⟩]⟩]
      (by decide)).2.2 ⟨5, [⟨2, 8, [], 0⟩]⟩ (by decide)⟩

theorem set_next_head (s : PurgeState) : (set_next s).1.head = s.head := by
  unfold set_next
  cases hg : s.grp with
  | cons r rest => rfl
  | nil =>
    cases hp : popMinBy (fun g => g.trx_no) s.queue with
    | none => rfl
    | some p =>
      cases p with
      | mk g q =>
        cases hgr : g.rsegs with
        | nil => simp [hgr]
        | cons r rest => simp [hgr, activateRseg]

theorem read_undo_rec_head (s : PurgeState) :
    (trx_purge_read_undo_rec s).head = s.head := by
  unfold trx_purge_read_undo_rec
  cases s.rseg with
  | none => rfl
  | some r =>
    dsimp only
    cases (if r.needs_purge ≠ 0 then (r.hist.headD ⟨0, []⟩).recs.head? else none) <;> rfl

theorem choose_next_log_head (s : PurgeState) :
    (trx_purge_choose_next_log s).head = s.head := by
  unfold trx_purge_choose_next_log
  rcases hsn : set_next s with ⟨s1, b⟩
  have h1 : s1.head = s.head := by
    have := set_next_head s
    rw [hsn] at this
    exact this
  cases b
  · exact h1
  · rw [read_undo_rec_head]
    exact h1

theorem get_next_history_log_head (s : PurgeState) :
    (trx_purge_rseg_get_next_history_log s).head = s.head := by
  unfold trx_purge_rseg_get_next_history_log
  cases s.rseg with
  | none => rfl
  | some r =>
    dsimp only
    cases r.hist with
    | nil => rfl
    | cons a rest =>
      dsimp only
      cases rest with
      | nil => rfl
      | cons b rest2 => rfl

theorem get_next_rec_head (s : PurgeState) :
    (trx_purge_get_next_rec s).1.head = s.head := by
  unfold trx_purge_get_next_rec
  cases s.rseg with
  | none => rfl
  | some r =>
    dsimp only
    by_cases ho : s.offset0 = true
    · rw [if_pos ho]
      dsimp only
      rw [choose_next_log_head, get_next_history_log_head]
    · rw [if_neg ho]
      cases s.curRecs with
      | nil => rfl
      | cons u rest =>
        dsimp only
        cases rest with
        | nil =>
          dsimp only
          rw [choose_next_log_head, get_next_history_log_head]
        | cons u2 rest2 => rfl

theorem fetch_next_rec_head (s : PurgeState) :
    (trx_purge_fetch_next_rec s).1.head = s.head := by
  unfold trx_purge_fetch_next_rec
  dsimp only
  set s1 := if s.next_stored = true then s else trx_purge_choose_next_log s with hs1
  have h1 : s1.head = s.head := by
    rw [hs1]
    by_cases h : s.next_stored = true
    · rw [if_pos h]
    · rw [if_neg h]
      exact choose_next_log_head s
  by_cases h2 : s1.next_stored = false
  · rw [if_pos h2]
    exact h1
  · rw [if_neg h2]
    by_cases h3 : s1.low_limit_no ≤ s1.tail.trx_no
    · rw [if_pos h3]
      exact h1
    · rw [if_neg h3]
      have hgr := get_next_rec_head s1
      rcases hg : trx_purge_get_next_rec s1 with ⟨s2, r⟩
      show s2.head = s.head
      have h4 : s2.head = s1.head := by
        rw [hg] at hgr
        exact hgr
      rw [h4]
      exact h1

theorem attachLoop_head_mono (batch : Nat) :
    ∀ (fuel : Nat) (s : PurgeState), s.head ≤ (attachLoop batch fuel s).1.head := by
  intro fuel
  induction fuel with
  | zero => intro s; exact posLe_refl _
  | succ fuel ih =>
    intro s
    rw [attachLoop]
    dsimp only
    set s0 := if s.head ≤ s.tail then { s with head := s.tail } else s with hs0
    have h0 : s.head ≤ s0.head := by
      rw [hs0]
      by_cases h : s.head ≤ s.tail
      · rw [if_pos h]
        exact h
      · rw [if_neg h]
        exact posLe_refl _
    have hfh := fetch_next_rec_head s0
    rcases hf : trx_purge_fetch_next_rec s0 with ⟨s1, res⟩
    have hfh1 : s1.head = s0.head := by
      rw [hf] at hfh
      exact hfh
    cases res with
    | none =>
      show s.head ≤ s1.head
      rw [hfh1]
      exact h0
    | some fr =>
      cases fr with
      | dummy =>
        show s.head ≤ (attachLoop batch fuel s1).1.head
        exact posLe_trans h0 (hfh1 ▸ ih s1)
      | undoRec i pos =>
        show s.head ≤ (if batch ≤ s1.pages then (s1, [(i, pos)])
            else ((attachLoop batch fuel s1).1,
                  (i, pos) :: (attachLoop batch fuel s1).2)).1.head
        by_cases hb : batch ≤ s1.pages
        · rw [if_pos hb]
          show s.head ≤ s1.head
          rw [hfh1]
          exact h0
        · rw [if_neg hb]
          show s.head ≤ (attachLoop batch fuel s1).1.head
          exact posLe_trans h0 (hfh1 ▸ ih s1)

/-- C9 counterexample: a batch over a two-segment queue group whose
segments share trx_no 3 (the grouping the data model allows for
commit-number ties).  After segment 1's last record (3,7) is fetched,
the iterator advances within the group and rolls `tail` back to (3,0)
for segment 2; the batch-size limit (1 page) then ends the loop with
`head = (3,7) > tail = (3,0)` — the claimed invariant
`purge_sys.head <= purge_sys.tail` does not hold when the fetch loop
ends, and on a further iteration the guarded assignment would NOT
re-establish head = tail. -/
theorem attach_head_gt_tail_cex :
    ¬ ((trx_purge_attach_undo_recs 1 5
        ⟨[], [⟨2, 0, [⟨3, [0]⟩], 1⟩], some ⟨1, 0, [⟨3, [5, 7]⟩], 1⟩, [7], false,
         ⟨3, 7⟩, ⟨0, 0⟩, true, 4, 0⟩).1.head
      ≤ (trx_purge_attach_undo_recs 1 5
        ⟨[], [⟨2, 0, [⟨3, [0]⟩], 1⟩], some ⟨1, 0, [⟨3, [5, 7]⟩], 1⟩, [7], false,
         ⟨3, 7⟩, ⟨0, 0⟩, true, 4, 0⟩).1.tail) := by
  decide

/-- C9 (amended): `trx_purge_attach_undo_recs` begins each batch by
setting head = tail, and before each fetch sets head = tail again only
when head <= tail still holds — head thereby tracks the maximum tail
position and never falls below the tail at batch start; after the
iterator rolls tail back to another rollback segment sharing the same
trx_no, head can exceed tail and is then left unchanged. -/
theorem attach_head_guarded (batch fuel : Nat) (s : PurgeState) :
    (trx_purge_attach_undo_recs batch 0 s).1.head = s.tail ∧
    s.tail ≤ (trx_purge_attach_undo_recs batch fuel s).1.head := by
  constructor
  · rfl
  · unfold trx_purge_attach_undo_recs
    exact attachLoop_head_mono batch fuel { s with head := s.tail }

theorem set_next_llno (s : PurgeState) : (set_next s).1.low_limit_no = s.low_limit_no := by
  unfold set_next
  cases hg : s.grp with
  | cons r rest => rfl
  | nil =>
    cases hp : popMinBy (fun g => g.trx_no) s.queue with
    | none => rfl
    | some p =>
      cases p with
      | mk g q =>
        cases hgr : g.rsegs with
        | nil => simp [hgr]
        | cons r rest => simp [hgr, activateRseg]

theorem read_undo_rec_llno (s : PurgeState) :
    (trx_purge_read_undo_rec s).low_limit_no = s.low_limit_no := by
  unfold trx_purge_read_undo_rec
  cases s.rseg with
  | none => rfl
  | some r =>
    dsimp only
    cases (if r.needs_purge ≠ 0 then (r.hist.headD ⟨0, []⟩).recs.head? else none) <;> rfl

theorem choose_next_log_llno (s : PurgeState) :
    (trx_purge_choose_next_log s).low_limit_no = s.low_limit_no := by
  unfold trx_purge_choose_next_log
  rcases hsn : set_next s with ⟨s1, b⟩
  have h1 : s1.low_limit_no = s.low_limit_no := by
    have := set_next_llno s
    rw [hsn] at this
    exact this
  cases b
  · exact h1
  · rw [read_undo_rec_llno]
    exact h1

theorem get_next_history_log_llno (s : PurgeState) :
    (trx_purge_rseg_get_next_history_log s).low_limit_no = s.low_limit_no := by
  unfold trx_purge_rseg_get_next_history_log
  cases s.rseg with
  | none => rfl
  | some r =>
    dsimp only
    cases r.hist with
    | nil => rfl
    | cons a rest =>
      dsimp only
      cases rest with
      | nil => rfl
      | cons b rest2 => rfl

theorem get_next_rec_llno (s : PurgeState) :
    (trx_purge_get_next_rec s).1.low_limit_no = s.low_limit_no := by
  unfold trx_purge_get_next_rec
  cases s.rseg with
  | none => rfl
  | some r =>
    dsimp only
    by_cases ho : s.offset0 = true
    · rw [if_pos ho]
      dsimp only
      rw [choose_next_log_llno, get_next_history_log_llno]
    · rw [if_neg ho]
      cases s.curRecs with
      | nil => rfl
      | cons u rest =>
        dsimp only
        cases rest with
        | nil =>
          dsimp only
          rw [choose_next_log_llno, get_next_history_log_llno]
        | cons u2 rest2 => rfl

theorem fetch_next_rec_llno (s : PurgeState) :
    (trx_purge_fetch_next_rec s).1.low_limit_no = s.low_limit_no := by
  unfold trx_purge_fetch_next_rec
  dsimp only
  set s1 := if s.next_stored = true then s else trx_purge_choose_next_log s with hs1
  have h1 : s1.low_limit_no = s.low_limit_no := by
    rw [hs1]
    by_cases h : s.next_stored = true
    · rw [if_pos h]
    · rw [if_neg h]
      exact choose_next_log_llno s
  by_cases h2 : s1.next_stored = false
  · rw [if_pos h2]
    exact h1
  · rw [if_neg h2]
    by_cases h3 : s1.low_limit_no ≤ s1.tail.trx_no
    · rw [if_pos h3]
      exact h1
    · rw [if_neg h3]
      have hgr := get_next_rec_llno s1
      rcases hg : trx_purge_get_next_rec s1 with ⟨s2, r⟩
      show s2.low_limit_no = s.low_limit_no
      have h4 : s2.low_limit_no = s1.low_limit_no := by
        rw [hg] at hgr
        exact hgr
      rw [h4]
      exact h1

theorem set_next_ns (s : PurgeState) : (set_next s).1.next_stored = s.next_stored := by
  unfold set_next
  cases hg : s.grp with
  | cons r rest => rfl
  | nil =>
    cases hp : popMinBy (fun g => g.trx_no) s.queue with
    | none => rfl
    | some p =>
      cases p with
      | mk g q =>
        cases hgr : g.rsegs with
        | nil => simp [hgr]
        | cons r rest => simp [hgr, activateRseg]

theorem set_next_success_rseg (s : PurgeState) (hok : (set_next s).2 = true) :
    ∃ r, (set_next s).1.rseg = some r ∧ (set_next s).1.tail.trx_no = r.last_trx_no := by
  unfold set_next at hok ⊢
  cases hg : s.grp with
  | cons r rest => exact ⟨r, rfl, rfl⟩
  | nil =>
    cases hp : popMinBy (fun g => g.trx_no) s.queue with
    | none => simp [hg, hp] at hok
    | some p =>
      cases p with
      | mk g q =>
        cases hgr : g.rsegs with
        | nil => simp [hg, hp, hgr] at hok
        | cons r rest => exact ⟨r, by simp [hgr, activateRseg], by simp [hgr, activateRseg]⟩

theorem read_undo_rec_tail_sync (s : PurgeState) (r : PurgeRseg)
    (hr : s.rseg = some r) (ht : s.tail.trx_no = r.last_trx_no) :
    TailSync (trx_purge_read_undo_rec s) := by
  unfold trx_purge_read_undo_rec
  rw [hr]
  dsimp only
  cases hh : (if r.needs_purge ≠ 0 then (r.hist.headD ⟨0, []⟩).recs.head? else none) with
  | none =>
    intro _ hoff
    simp at hoff
  | some u =>
    intro _ _
    cases hhist : r.hist with
    | nil =>
      rw [hhist] at hh
      simp at hh
    | cons log t =>
      refine ⟨r, log, t, rfl, hhist, ?_⟩
      show s.tail.trx_no = log.trx_no
      rw [ht]
      unfold PurgeRseg.last_trx_no
      rw [hhist]

theorem choose_tail_sync (s : PurgeState) (hns : s.next_stored = false) :
    TailSync (trx_purge_choose_next_log s) := by
  unfold trx_purge_choose_next_log
  rcases hsn : set_next s with ⟨s1, b⟩
  cases b
  · intro h1 _
    have := set_next_ns s
    rw [hsn] at this
    simp only at this
    rw [this, hns] at h1
    simp at h1
  · obtain ⟨r, hr, ht⟩ := set_next_success_rseg s (by rw [hsn])
    rw [hsn] at hr ht
    exact read_undo_rec_tail_sync s1 r hr ht

theorem get_next_history_log_ns (s : PurgeState) (r : PurgeRseg) (hr : s.rseg = some r) :
    (trx_purge_rseg_get_next_history_log s).next_stored = false := by
  unfold trx_purge_rseg_get_next_history_log
  rw [hr]
  dsimp only
  cases r.hist with
  | nil => rfl
  | cons a rest =>
    dsimp only
    cases rest with
    | nil => rfl
    | cons b rest2 => rfl

theorem get_next_rec_tail_sync (s : PurgeState) (h : TailSync s) :
    TailSync (trx_purge_get_next_rec s).1 := by
  cases hrs : s.rseg with
  | none =>
    have heq : trx_purge_get_next_rec s = (s, .dummy) := by
      unfold trx_purge_get_next_rec
      rw [hrs]
    rw [heq]
    exact h
  | some r =>
    by_cases ho : s.offset0 = true
    · have heq : trx_purge_get_next_rec s
          = (trx_purge_choose_next_log (trx_purge_rseg_get_next_history_log s), .dummy) := by
        unfold trx_purge_get_next_rec
        rw [hrs]
        dsimp only
        rw [if_pos ho]
      rw [heq]
      exact choose_tail_sync _ (get_next_history_log_ns s r hrs)
    · cases hcr : s.curRecs with
      | nil =>
        have heq : trx_purge_get_next_rec s = (s, .dummy) := by
          unfold trx_purge_get_next_rec
          rw [hrs]
          dsimp only
          rw [if_neg ho, hcr]
        rw [heq]
        exact h
      | cons u rest =>
        cases rest with
        | nil =>
          have heq : (trx_purge_get_next_rec s).1
              = trx_purge_choose_next_log (trx_purge_rseg_get_next_history_log s) := by
            unfold trx_purge_get_next_rec
            rw [hrs]
            dsimp only
            rw [if_neg ho, hcr]
          rw [heq]
          exact choose_tail_sync _ (get_next_history_log_ns s r hrs)
        | cons u2 rest2 =>
          have heq : (trx_purge_get_next_rec s).1
              = { s with curRecs := u2 :: rest2,
                         tail := { s.tail with undo_no := u2 } } := by
            unfold trx_purge_get_next_rec
            rw [hrs]
            dsimp only
            rw [if_neg ho, hcr]
          rw [heq]
          intro hns hoff
          obtain ⟨r1, log, t, h1, h2, h3⟩ := h hns hoff
          exact ⟨r1, log, t, h1, h2, h3⟩

theorem get_next_rec_emit (s : PurgeState) (h : TailSync s)
    (hns : s.next_stored = true) :
    ∀ i pos, (trx_purge_get_next_rec s).2 = .undoRec i pos →
      pos.trx_no = s.tail.trx_no := by
  intro i pos he
  cases hrs : s.rseg with
  | none =>
    have heq : trx_purge_get_next_rec s = (s, .dummy) := by
      unfold trx_purge_get_next_rec
      rw [hrs]
    rw [heq] at he
    simp at he
  | some r =>
    by_cases ho : s.offset0 = true
    · have heq : (trx_purge_get_next_rec s).2 = .dummy := by
        unfold trx_purge_get_next_rec
        rw [hrs]
        dsimp only
        rw [if_pos ho]
      rw [heq] at he
      simp at he
    · obtain ⟨r1, log, t, h1, h2, h3⟩ := h hns (by simpa using ho)
      have hrr : r1 = r := by
        rw [hrs] at h1
        exact (Option.some_inj.mp h1).symm
      rw [hrr] at h2
      cases hcr : s.curRecs with
      | nil =>
        have heq : (trx_purge_get_next_rec s).2 = .dummy := by
          unfold trx_purge_get_next_rec
          rw [hrs]
          dsimp only
          rw [if_neg ho, hcr]
        rw [heq] at he
        simp at he
      | cons u rest =>
        have heq : (trx_purge_get_next_rec s).2
            = .undoRec r.id ⟨(r.hist.headD ⟨0, []⟩).trx_no, u⟩ := by
          unfold trx_purge_get_next_rec
          rw [hrs]
          dsimp only
          rw [if_neg ho, hcr]
          cases rest <;> rfl
        rw [heq] at he
        have hpos : pos = ⟨(r.hist.headD ⟨0, []⟩).trx_no, u⟩ := by
          cases he
          rfl
        rw [hpos, h3, h2]
        rfl

theorem fetch_tail_sync (s : PurgeState) (h : TailSync s) :
    TailSync (trx_purge_fetch_next_rec s).1 := by
  unfold trx_purge_fetch_next_rec
  dsimp only
  set s1 := if s.next_stored = true then s else trx_purge_choose_next_log s with hs1
  have h1 : TailSync s1 := by
    rw [hs1]
    by_cases hn : s.next_stored = true
    · rw [if_pos hn]
      exact h
    · rw [if_neg hn]
      simp at hn
      exact choose_tail_sync s hn
  by_cases h2 : s1.next_stored = false
  · rw [if_pos h2]
    exact h1
  · rw [if_neg h2]
    by_cases h3 : s1.low_limit_no ≤ s1.tail.trx_no
    · rw [if_pos h3]
      exact h1
    · rw [if_neg h3]
      have hgr := get_next_rec_tail_sync s1 h1
      rcases hg : trx_purge_get_next_rec s1 with ⟨s2, r⟩
      show TailSync s2
      rw [hg] at hgr
      exact hgr

theorem fetch_emit_lt (s : PurgeState) (h : TailSync s) :
    ∀ i pos, (trx_purge_fetch_next_rec s).2 = some (.undoRec i pos) →
      pos.trx_no < s.low_limit_no := by
  intro i pos he
  unfold trx_purge_fetch_next_rec at he
  dsimp only at he
  set s1 := if s.next_stored = true then s else trx_purge_choose_next_log s with hs1
  have h1 : TailSync s1 := by
    rw [hs1]
    by_cases hn : s.next_stored = true
    · rw [if_pos hn]
      exact h
    · rw [if_neg hn]
      simp at hn
      exact choose_tail_sync s hn
  have hl : s1.low_limit_no = s.low_limit_no := by
    rw [hs1]
    by_cases hn : s.next_stored = true
    · rw [if_pos hn]
    · rw [if_neg hn]
      exact choose_next_log_llno s
  by_cases h2 : s1.next_stored = false
  · rw [if_pos h2] at he
    simp at he
  · rw [if_neg h2] at he
    by_cases h3 : s1.low_limit_no ≤ s1.tail.trx_no
    · rw [if_pos h3] at he
      simp at he
    · rw [if_neg h3] at he
      have hns1 : s1.next_stored = true := by
        simp at h2
        exact h2
      have hem := get_next_rec_emit s1 h1 hns1
      have he2 : (trx_purge_get_next_rec s1).2 = FetchRes.undoRec i pos := by
        have h5 : some (trx_purge_get_next_rec s1).2
            = some (FetchRes.undoRec i pos) := he
        exact Option.some_inj.mp h5
      have := hem i pos he2
      rw [this, ← hl]
      omega

theorem attachLoop_no_premature (batch : Nat) :
    ∀ (fuel : Nat) (s : PurgeState), TailSync s →
      ∀ e ∈ (attachLoop batch fuel s).2, e.2.trx_no < s.low_limit_no := by
  intro fuel
  induction fuel with
  | zero =>
    intro s _ e he
    simp [attachLoop] at he
  | succ fuel ih =>
    intro s h e he
    rw [attachLoop] at he
    dsimp only at he
    set s0 := if s.head ≤ s.tail then { s with head := s.tail } else s with hs0
    have h0 : TailSync s0 := by
      rw [hs0]
      by_cases hh : s.head ≤ s.tail
      · rw [if_pos hh]
        exact h
      · rw [if_neg hh]
        exact h
    have hl0 : s0.low_limit_no = s.low_limit_no := by
      rw [hs0]
      by_cases hh : s.head ≤ s.tail
      · rw [if_pos hh]
      · rw [if_neg hh]
    have h1 := fetch_tail_sync s0 h0
    have hlf := fetch_next_rec_llno s0
    have hemit := fetch_emit_lt s0 h0
    cases hfp : trx_purge_fetch_next_rec s0 with
    | mk s1 res =>
      rw [hfp] at he h1 hlf hemit
      have h1s : TailSync s1 := h1
      have hlfs : s1.low_limit_no = s0.low_limit_no := hlf
      cases res with
      | none =>
        have he2 : e ∈ ([] : List (Nat × PurgePos)) := he
        simp at he2
      | some fr =>
        cases fr with
        | dummy =>
          have he2 : e ∈ (attachLoop batch fuel s1).2 := he
          have := ih s1 h1s e he2
          rw [hlfs, hl0] at this
          exact this
        | undoRec i pos =>
          have hp : pos.trx_no < s0.low_limit_no := hemit i pos rfl
          have he2 : e ∈ (if batch ≤ s1.pages then (s1, [(i, pos)])
              else ((attachLoop batch fuel s1).1,
                    (i, pos) :: (attachLoop batch fuel s1).2)).2 := he
          by_cases hb : batch ≤ s1.pages
          · rw [if_pos hb] at he2
            have he3 : e = (i, pos) := by
              simpa using he2
            rw [he3]
            show pos.trx_no < s.low_limit_no
            rw [← hl0]
            exact hp
          · rw [if_neg hb] at he2
            have he3 : e = (i, pos) ∨ e ∈ (attachLoop batch fuel s1).2 := by
              simpa using he2
            rcases he3 with rfl | hmem
            · show pos.trx_no < s.low_limit_no
              rw [← hl0]
              exact hp
            · have := ih s1 h1s e hmem
              rw [hlfs, hl0] at this
              exact this

/-- C1: no premature purge — every record a batch hands to a worker
bucket has trx_no strictly below the visibility floor snapshotted for
the batch, and `trx_purge_fetch_next_rec` returns NULL (stops fetching)
whenever the stored `purge_sys.tail.trx_no` has reached
`purge_sys.low_limit_no()`. -/
theorem trx_purge_no_premature_purge (batch fuel : Nat) (s : PurgeState)
    (h : TailSync s) :
    (∀ e ∈ (trx_purge_attach_undo_recs batch fuel s).2,
      e.2.trx_no < s.low_limit_no) ∧
    (s.next_stored = true → s.low_limit_no ≤ s.tail.trx_no →
      trx_purge_fetch_next_rec s = (s, none)) := by
  constructor
  · intro e he
    unfold trx_purge_attach_undo_recs at he
    exact attachLoop_no_premature batch fuel { s with head := s.tail } h e he
  · intro hns hge
    unfold trx_purge_fetch_next_rec
    dsimp only
    rw [if_pos hns, if_neg (by simp [hns]), if_pos hge]

/-- C1 witness: `trx_purge_no_premature_purge` on a one-segment batch
with floor 10, and on a state whose tail has reached the floor. -/
theorem trx_purge_no_premature_purge_witness :
    (∀ e ∈ (trx_purge_attach_undo_recs 100 10
        ⟨[], [], some ⟨1, 0, [⟨3, [5]⟩], 1⟩, [5], false, ⟨3, 5⟩, ⟨0, 0⟩,
         true, 10, 0⟩).2, e.2.trx_no < 10) ∧
    trx_purge_fetch_next_rec
        ⟨[], [], some ⟨1, 0, [⟨12, [5]⟩], 1⟩, [5], false, ⟨12, 5⟩, ⟨0, 0⟩,
         true, 10, 0⟩
      = (⟨[], [], some ⟨1, 0, [⟨12, [5]⟩], 1⟩, [5], false, ⟨12, 5⟩, ⟨0, 0⟩,
          true, 10, 0⟩, none) := by
  constructor
  · exact (trx_purge_no_premature_purge 100 10
        ⟨[], [], some ⟨1, 0, [⟨3, [5]⟩], 1⟩, [5], false, ⟨3, 5⟩, ⟨0, 0⟩, true, 10, 0⟩
        (fun _ _ => ⟨_, _, _, rfl, rfl, rfl⟩)).1
  · exact (trx_purge_no_premature_purge 100 10
        ⟨[], [], some ⟨1, 0, [⟨12, [5]⟩], 1⟩, [5], false, ⟨12, 5⟩, ⟨0, 0⟩, true, 10, 0⟩
        (fun _ _ => ⟨_, _, _, rfl, rfl, rfl⟩)).2 rfl (by decide)

theorem Ppend_eq (s : PurgeState) (i : Nat) :
    Ppend s i = pendOf (parkedRsegs s) i ++ Pactive s i := rfl

theorem pendOf_append (l1 l2 : List PurgeRseg) (i : Nat) :
    pendOf (l1 ++ l2) i = pendOf l1 i ++ pendOf l2 i := by
  simp [pendOf, List.filter_append]

theorem pendOf_cons (r : PurgeRseg) (l : List PurgeRseg) (i : Nat) :
    pendOf (r :: l) i
      = (if r.id = i then pendParked r else []) ++ pendOf l i := by
  by_cases h : r.id = i
  · simp [pendOf, List.filter_cons, h]
  · simp [pendOf, List.filter_cons, h]

theorem pendOf_nil_of_not_mem (l : List PurgeRseg) (i : Nat)
    (h : ∀ r ∈ l, r.id ≠ i) : pendOf l i = [] := by
  unfold pendOf
  have : l.filter (fun r => r.id == i) = [] := by
    rw [List.filter_eq_nil_iff]
    intro r hr
    simp [h r hr]
  rw [this]
  rfl

theorem nodup_filter_id_len (l : List PurgeRseg) (i : Nat)
    (h : (l.map (fun r => r.id)).Nodup) :
    (l.filter (fun r => r.id == i)).length ≤ 1 := by
  induction l with
  | nil => simp
  | cons a l ih =>
    rw [List.map_cons, List.nodup_cons] at h
    by_cases ha : a.id = i
    · have hfil : l.filter (fun r => r.id == i) = [] := by
        rw [List.filter_eq_nil_iff]
        intro r hr
        simp only [ne_eq, beq_iff_eq]
        intro hri
        exact h.1 (List.mem_map.mpr ⟨r, hr, by rw [hri, ha]⟩)
      simp [List.filter_cons, ha, hfil]
    · have hb : (a.id == i) = false := by simp [ha]
      simp only [List.filter_cons, hb, Bool.false_eq_true, if_false]
      exact ih h.2

theorem eq_of_perm_len_le_one {α : Type} {l l2 : List α} (h : l.Perm l2)
    (hl : l2.length ≤ 1) : l = l2 := by
  cases l2 with
  | nil => exact h.eq_nil
  | cons a t =>
    cases t with
    | nil => exact List.perm_singleton.mp h
    | cons b t2 => simp at hl

theorem pendOf_perm (l1 l2 : List PurgeRseg) (i : Nat) (h : l1.Perm l2)
    (hu : (l2.map (fun r => r.id)).Nodup) : pendOf l1 i = pendOf l2 i := by
  unfold pendOf
  rw [eq_of_perm_len_le_one (h.filter _) (nodup_filter_id_len l2 i hu)]

theorem pendOf_extract (A B : List PurgeRseg) (r : PurgeRseg) (i : Nat)
    (hu : ((A ++ r :: B).map (fun x => x.id)).Nodup) :
    pendOf (A ++ r :: B) i
      = pendOf (A ++ B) i ++ (if r.id = i then pendParked r else []) := by
  rw [pendOf_append, pendOf_cons, pendOf_append]
  rw [List.map_append, List.nodup_append] at hu
  by_cases h : r.id = i
  · have hA : pendOf A i = [] := by
      apply pendOf_nil_of_not_mem
      intro x hx hxi
      exact hu.2.2 (List.mem_map.mpr ⟨x, hx, rfl⟩) (by
        rw [List.map_cons]
        exact List.mem_cons.mpr (Or.inl (by rw [hxi, h])))
    have hB : pendOf B i = [] := by
      apply pendOf_nil_of_not_mem
      intro x hx hxi
      have hnd := hu.2.1
      rw [List.map_cons, List.nodup_cons] at hnd
      exact hnd.1 (List.mem_map.mpr ⟨x, hx, by rw [hxi, h]⟩)
    rw [hA, hB, if_pos h]
    simp
  · simp [h]

theorem parkedRsegs_read (s : PurgeState) :
    parkedRsegs (trx_purge_read_undo_rec s) = parkedRsegs s := by
  unfold parkedRsegs trx_purge_read_undo_rec
  cases s.rseg with
  | none => rfl
  | some r =>
    dsimp only
    cases (if r.needs_purge ≠ 0 then (r.hist.headD ⟨0, []⟩).recs.head? else none) <;> rfl

theorem read_rseg_activate (s2 : PurgeState) (r : PurgeRseg) (rest : List PurgeRseg) :
    (trx_purge_read_undo_rec (activateRseg s2 r rest)).rseg = some r := by
  unfold trx_purge_read_undo_rec activateRseg
  dsimp only
  cases (if r.needs_purge ≠ 0 then (r.hist.headD ⟨0, []⟩).recs.head? else none) <;> rfl

theorem read_ns_some (s : PurgeState) (r : PurgeRseg) (hr : s.rseg = some r) :
    (trx_purge_read_undo_rec s).next_stored = true := by
  unfold trx_purge_read_undo_rec
  rw [hr]
  dsimp only
  cases (if r.needs_purge ≠ 0 then (r.hist.headD ⟨0, []⟩).recs.head? else none) <;> rfl

theorem read_off0_shape (s : PurgeState) (r : PurgeRseg) (hr : s.rseg = some r) :
    (trx_purge_read_undo_rec s).offset0 = true →
    ∃ r2, (trx_purge_read_undo_rec s).rseg = some r2 ∧
      (r2.needs_purge ≠ 0 → ∀ log, r2.hist.head? = some log → log.recs = []) := by
  unfold trx_purge_read_undo_rec
  rw [hr]
  dsimp only
  cases hh : (if r.needs_purge ≠ 0 then (r.hist.headD ⟨0, []⟩).recs.head? else none) with
  | some u =>
    intro hoff
    simp at hoff
  | none =>
    intro _
    refine ⟨r, rfl, ?_⟩
    intro hne log hlog
    rw [if_pos hne] at hh
    cases hhist : r.hist with
    | nil => rw [hhist] at hlog; simp at hlog
    | cons l0 t =>
      rw [hhist] at hlog hh
      simp at hlog
      rw [← hlog]
      simpa using hh

theorem pendActive_read_activate (s2 : PurgeState) (r : PurgeRseg)
    (rest : List PurgeRseg) :
    pendActive (trx_purge_read_undo_rec (activateRseg s2 r rest)) = pendParked r := by
  unfold trx_purge_read_undo_rec activateRseg
  dsimp only
  cases hh : (if r.needs_purge ≠ 0 then (r.hist.headD ⟨0, []⟩).recs.head? else none) with
  | some u =>
    have hne : r.needs_purge ≠ 0 := by
      by_contra h0
      rw [if_neg (fun hc => hc h0)] at hh
      simp at hh
    rw [if_pos hne] at hh
    cases hhist : r.hist with
    | nil =>
      rw [hhist] at hh
      simp at hh
    | cons log t =>
      rw [hhist] at hh
      unfold pendActive pendParked
      dsimp only
      rw [if_neg hne, if_neg hne]
      simp only [Bool.and_self, Bool.not_false, Bool.and_true, if_true, hhist]
      simp [flatHist, flatLog]
  | none =>
    unfold pendActive pendParked
    dsimp only
    by_cases hne : r.needs_purge = 0
    · rw [if_pos hne, if_pos hne]
    · rw [if_neg hne, if_neg hne]
      simp

theorem read_rseg (s : PurgeState) :
    (trx_purge_read_undo_rec s).rseg = s.rseg := by
  unfold trx_purge_read_undo_rec
  cases hr : s.rseg with
  | none => exact hr
  | some r =>
    dsimp only
    cases (if r.needs_purge ≠ 0 then (r.hist.headD ⟨0, []⟩).recs.head? else none) <;> rfl

theorem read_cursor (s : PurgeState) (r : PurgeRseg) (hr : s.rseg = some r)
    (hoff : (trx_purge_read_undo_rec s).offset0 = false) : r.needs_purge ≠ 0 := by
  unfold trx_purge_read_undo_rec at hoff
  rw [hr] at hoff
  dsimp only at hoff
  cases hh : (if r.needs_purge ≠ 0 then (r.hist.headD ⟨0, []⟩).recs.head? else none) with
  | some u =>
    intro h0
    rw [if_neg (fun hc => hc h0)] at hh
    simp at hh
  | none =>
    rw [hh] at hoff
    simp at hoff

theorem Pactive_some (s : PurgeState) (r : PurgeRseg) (i : Nat) (hr : s.rseg = some r) :
    Pactive s i = if r.id = i then pendActive s else [] := by
  unfold Pactive
  rw [hr]

theorem Pactive_none (s : PurgeState) (i : Nat) (hr : s.rseg = none) :
    Pactive s i = [] := by
  unfold Pactive
  rw [hr]

theorem parked_perm_pop (s2 : PurgeState) (g : TrxUndoRsegs) (q : List TrxUndoRsegs)
    (hg : s2.grp = []) (hpop : popMinBy (fun g => g.trx_no) s2.queue = some (g, q)) :
    (parkedRsegs s2).Perm (g.rsegs ++ q.flatMap (fun g => g.rsegs)) := by
  unfold parkedRsegs
  rw [hg, List.append_nil]
  have h := List.Perm.flatMap_right (fun g => g.rsegs) (popMinBy_perm _ hpop)
  simpa using h

theorem activeList_read_activate (X : PurgeState) (r : PurgeRseg) (rest : List PurgeRseg) :
    activeList (trx_purge_read_undo_rec (activateRseg X r rest)) = [r] := by
  unfold activeList
  rw [read_rseg_activate]

theorem PInv_read_activate (X : PurgeState) (r : PurgeRseg) (rest : List PurgeRseg)
    (hu : (((X.queue.flatMap (fun g => g.rsegs) ++ rest) ++ [r]).map
        (fun x => x.id)).Nodup) :
    PInv (trx_purge_read_undo_rec (activateRseg X r rest)) := by
  refine ⟨?_, ?_, ?_, ?_⟩
  · intro h
    rw [read_ns_some (activateRseg X r rest) r rfl] at h
    exact absurd h (by simp)
  · intro _ hoff
    exact read_off0_shape (activateRseg X r rest) r rfl hoff
  · intro _ hoff
    exact ⟨r, read_rseg_activate X r rest, read_cursor (activateRseg X r rest) r rfl hoff⟩
  · have h1 : parkedRsegs (trx_purge_read_undo_rec (activateRseg X r rest))
        ++ activeList (trx_purge_read_undo_rec (activateRseg X r rest))
        = (X.queue.flatMap (fun g => g.rsegs) ++ rest) ++ [r] := by
      rw [parkedRsegs_read, activeList_read_activate]
      rfl
    rw [h1]
    exact hu

theorem choose_Ppend (s2 : PurgeState)
    (hu : ((parkedRsegs s2).map (fun r => r.id)).Nodup) (i : Nat) :
    Ppend (trx_purge_choose_next_log s2) i = pendOf (parkedRsegs s2) i := by
  unfold trx_purge_choose_next_log set_next
  cases hg : s2.grp with
  | cons r rest =>
    dsimp only
    rw [Ppend_eq, parkedRsegs_read]
    have hparked : parkedRsegs (activateRseg s2 r rest)
        = s2.queue.flatMap (fun g => g.rsegs) ++ rest := rfl
    rw [hparked,
        Pactive_some _ r i (read_rseg_activate s2 r rest),
        pendActive_read_activate]
    have hps : parkedRsegs s2
        = s2.queue.flatMap (fun g => g.rsegs) ++ (r :: rest) := by
      unfold parkedRsegs
      rw [hg]
    rw [hps] at hu ⊢
    exact (pendOf_extract _ rest r i hu).symm
  | nil =>
    dsimp only
    cases hpop : popMinBy (fun g => g.trx_no) s2.queue with
    | none =>
      dsimp only
      rw [Ppend_eq]
      have h1 : parkedRsegs { s2 with grp := [], rseg := none } = parkedRsegs s2 := by
        unfold parkedRsegs
        rw [hg]
      have h2 : Pactive { s2 with grp := [], rseg := none } i
          = ([] : List PurgePos) := rfl
      rw [h1, h2, List.append_nil]
    | some gq =>
      cases gq with
      | mk g q =>
        dsimp only
        have hqperm := parked_perm_pop s2 g q hg hpop
        cases hrs : g.rsegs with
        | nil =>
          dsimp only
          rw [Ppend_eq]
          have h2 : Pactive { s2 with queue := q, grp := [], rseg := none } i
              = ([] : List PurgePos) := rfl
          have h1 : parkedRsegs { s2 with queue := q, grp := [], rseg := none }
              = q.flatMap (fun g => g.rsegs) := by
            unfold parkedRsegs
            simp
          rw [h1, h2, List.append_nil]
          rw [hrs] at hqperm
          refine (pendOf_perm _ _ i ?_ ?_).symm
          · simpa using hqperm
          · have hq2 : (parkedRsegs s2).Perm (q.flatMap (fun g => g.rsegs)) := by
              simpa using hqperm
            exact ((hq2.map (fun x => x.id)).nodup_iff).mp hu
        | cons r rest =>
          dsimp only
          rw [Ppend_eq, parkedRsegs_read]
          have hparked : parkedRsegs (activateRseg { s2 with queue := q, grp := [] } r rest)
              = q.flatMap (fun g => g.rsegs) ++ rest := rfl
          rw [hparked,
              Pactive_some _ r i (read_rseg_activate _ r rest),
              pendActive_read_activate]
          rw [hrs] at hqperm
          have hq2 : (parkedRsegs s2).Perm
              (r :: (rest ++ q.flatMap (fun g => g.rsegs))) := by
            simpa using hqperm
          have hnod : ((r :: (rest ++ q.flatMap (fun g => g.rsegs))).map
              (fun x => x.id)).Nodup :=
            ((hq2.map (fun x => x.id)).nodup_iff).mp hu
          have h1 : pendOf (parkedRsegs s2) i
              = pendOf (r :: (rest ++ q.flatMap (fun g => g.rsegs))) i :=
            pendOf_perm _ _ i hq2 hnod
          rw [h1]
          have h2 := pendOf_extract [] (rest ++ q.flatMap (fun g => g.rsegs)) r i hnod
          simp only [List.nil_append] at h2
          rw [h2]
          have hnodt : ((rest ++ q.flatMap (fun g => g.rsegs)).map
              (fun x => x.id)).Nodup := by
            have h3 := hnod
            rw [List.map_cons, List.nodup_cons] at h3
            exact h3.2
          have hpc : (q.flatMap (fun g => g.rsegs) ++ rest).Perm
              (rest ++ q.flatMap (fun g => g.rsegs)) := List.perm_append_comm
          congr 1
          exact pendOf_perm _ _ i hpc hnodt

theorem choose_PInv (s2 : PurgeState) (hns : s2.next_stored = false)
    (hu : ((parkedRsegs s2).map (fun r => r.id)).Nodup) :
    PInv (trx_purge_choose_next_log s2) := by
  unfold trx_purge_choose_next_log set_next
  cases hg : s2.grp with
  | cons r rest =>
    dsimp only
    apply PInv_read_activate
    have hps : parkedRsegs s2
        = s2.queue.flatMap (fun g => g.rsegs) ++ (r :: rest) := by
      unfold parkedRsegs
      rw [hg]
    rw [hps] at hu
    have h1 : (r :: rest).Perm (rest ++ [r]) :=
      (List.perm_append_singleton r rest).symm
    have h2 : (s2.queue.flatMap (fun g => g.rsegs) ++ (r :: rest)).Perm
        ((s2.queue.flatMap (fun g => g.rsegs) ++ rest) ++ [r]) := by
      have h3 := h1.append_left (s2.queue.flatMap (fun g => g.rsegs))
      rw [← List.append_assoc] at h3
      exact h3
    exact ((h2.map (fun x => x.id)).nodup_iff).mp hu
  | nil =>
    dsimp only
    cases hpop : popMinBy (fun g => g.trx_no) s2.queue with
    | none =>
      dsimp only
      refine ⟨fun _ => rfl, ?_, ?_, ?_⟩
      · intro h
        have h' : s2.next_stored = true := h
        rw [hns] at h'
        exact absurd h' (by simp)
      · intro h
        have h' : s2.next_stored = true := h
        rw [hns] at h'
        exact absurd h' (by simp)
      · have h1 : parkedRsegs { s2 with grp := [], rseg := none }
            ++ activeList { s2 with grp := [], rseg := none } = parkedRsegs s2 := by
          unfold parkedRsegs activeList
          rw [hg]
          simp
        rw [h1]
        exact hu
    | some gq =>
      cases gq with
      | mk g q =>
        dsimp only
        have hqperm := parked_perm_pop s2 g q hg hpop
        cases hrs : g.rsegs with
        | nil =>
          dsimp only
          refine ⟨fun _ => rfl, ?_, ?_, ?_⟩
          · intro h
            have h' : s2.next_stored = true := h
            rw [hns] at h'
            exact absurd h' (by simp)
          · intro h
            have h' : s2.next_stored = true := h
            rw [hns] at h'
            exact absurd h' (by simp)
          · have h1 : parkedRsegs { s2 with queue := q, grp := [], rseg := none }
                ++ activeList { s2 with queue := q, grp := [], rseg := none }
                = q.flatMap (fun g => g.rsegs) := by
              unfold parkedRsegs activeList
              simp
            rw [h1]
            rw [hrs] at hqperm
            have hq2 : (parkedRsegs s2).Perm (q.flatMap (fun g => g.rsegs)) := by
              simpa using hqperm
            exact ((hq2.map (fun x => x.id)).nodup_iff).mp hu
        | cons r rest =>
          dsimp only
          apply PInv_read_activate
          rw [hrs] at hqperm
          have hq2 : (parkedRsegs s2).Perm
              (r :: (rest ++ q.flatMap (fun g => g.rsegs))) := by
            simpa using hqperm
          have h1 : (r :: (rest ++ q.flatMap (fun g => g.rsegs))).Perm
              ((rest ++ q.flatMap (fun g => g.rsegs)) ++ [r]) :=
            (List.perm_append_singleton _ _).symm
          have h2 : ((rest ++ q.flatMap (fun g => g.rsegs)) ++ [r]).Perm
              ((q.flatMap (fun g => g.rsegs) ++ rest) ++ [r]) :=
            List.Perm.append_right [r] List.perm_append_comm
          have h3 := (hq2.trans h1).trans h2
          exact ((h3.map (fun x => x.id)).nodup_iff).mp hu

theorem parked_nodup_of_uniq (s : PurgeState)
    (hu : ((parkedRsegs s ++ activeList s).map (fun x => x.id)).Nodup) :
    ((parkedRsegs s).map (fun x => x.id)).Nodup := by
  rw [List.map_append] at hu
  exact List.Nodup.of_append_left hu

theorem activeList_some (s : PurgeState) (r : PurgeRseg) (hr : s.rseg = some r) :
    activeList s = [r] := by
  unfold activeList
  rw [hr]

theorem advance_Ppend (s : PurgeState) (r : PurgeRseg) (hr : s.rseg = some r)
    (hu : ((parkedRsegs s ++ activeList s).map (fun x => x.id)).Nodup) (i : Nat) :
    Ppend (trx_purge_choose_next_log (trx_purge_rseg_get_next_history_log s)) i
      = pendOf (parkedRsegs s) i
        ++ (if r.id = i then pendParked { r with hist := r.hist.tail } else []) := by
  have hup : ((parkedRsegs s).map (fun x => x.id)).Nodup := parked_nodup_of_uniq s hu
  unfold trx_purge_rseg_get_next_history_log
  rw [hr]
  dsimp only
  cases hh : r.hist with
  | nil =>
    dsimp only
    refine (choose_Ppend _ ?_ i).trans ?_
    · exact hup
    have hpp : pendParked { r with hist := ([] : List HistLog).tail } = [] := by
      unfold pendParked flatHist
      simp
    rw [hpp, ite_self, List.append_nil]
    rfl
  | cons log t =>
    dsimp only
    cases t with
    | nil =>
      dsimp only
      refine (choose_Ppend _ ?_ i).trans ?_
      · exact hup
      have hpp : pendParked { r with hist := (log :: ([] : List HistLog)).tail } = [] := by
        unfold pendParked flatHist
        simp
      rw [hpp, ite_self, List.append_nil]
      rfl
    | cons t0 tt =>
      dsimp only
      have hperm : (parkedRsegs { s with
            tail := (⟨r.last_trx_no + 1, 0⟩ : PurgePos), next_stored := false,
            pages := s.pages + 1,
            rseg := some { r with hist := t0 :: tt },
            queue := s.queue ++ [⟨({ r with hist := t0 :: tt } : PurgeRseg).last_trx_no,
              [{ r with hist := t0 :: tt }]⟩] }).Perm
          (parkedRsegs s ++ [{ r with hist := t0 :: tt }]) := by
        unfold parkedRsegs
        simp only [List.flatMap_append]
        have h1 : (([⟨({ r with hist := t0 :: tt } : PurgeRseg).last_trx_no,
              [{ r with hist := t0 :: tt }]⟩] : List TrxUndoRsegs).flatMap
            (fun g => g.rsegs)) = [{ r with hist := t0 :: tt }] := rfl
        rw [h1]
        rw [List.append_assoc, List.append_assoc]
        exact List.perm_append_comm.append_left _
      have hids : ((parkedRsegs s ++ [({ r with hist := t0 :: tt } : PurgeRseg)]).map
          (fun x => x.id)).Nodup := by
        rw [activeList_some s r hr] at hu
        have heq : ((parkedRsegs s ++ [({ r with hist := t0 :: tt } : PurgeRseg)]).map
            (fun x => x.id)) = ((parkedRsegs s ++ [r]).map (fun x => x.id)) := by
          rw [List.map_append, List.map_append]
          rfl
        rw [heq]
        exact hu
      refine (choose_Ppend _ (((hperm.map (fun x => x.id)).nodup_iff).mpr hids) i).trans ?_
      refine (pendOf_perm _ _ i hperm hids).trans ?_
      rw [pendOf_append, pendOf_cons]
      dsimp only
      simp [pendOf]

theorem histlog_parked_nodup (s : PurgeState) (r : PurgeRseg) (hr : s.rseg = some r)
    (hu : ((parkedRsegs s ++ activeList s).map (fun x => x.id)).Nodup) :
    ((parkedRsegs (trx_purge_rseg_get_next_history_log s)).map (fun x => x.id)).Nodup := by
  unfold trx_purge_rseg_get_next_history_log
  rw [hr]
  dsimp only
  cases hh : r.hist with
  | nil => exact parked_nodup_of_uniq s hu
  | cons log t =>
    dsimp only
    cases t with
    | nil => exact parked_nodup_of_uniq s hu
    | cons t0 tt =>
      dsimp only
      have hperm : (parkedRsegs { s with
            tail := (⟨r.last_trx_no + 1, 0⟩ : PurgePos), next_stored := false,
            pages := s.pages + 1,
            rseg := some { r with hist := t0 :: tt },
            queue := s.queue ++ [⟨({ r with hist := t0 :: tt } : PurgeRseg).last_trx_no,
              [{ r with hist := t0 :: tt }]⟩] }).Perm
          (parkedRsegs s ++ [{ r with hist := t0 :: tt }]) := by
        unfold parkedRsegs
        simp only [List.flatMap_append]
        have h1 : (([⟨({ r with hist := t0 :: tt } : PurgeRseg).last_trx_no,
              [{ r with hist := t0 :: tt }]⟩] : List TrxUndoRsegs).flatMap
            (fun g => g.rsegs)) = [{ r with hist := t0 :: tt }] := rfl
        rw [h1]
        rw [List.append_assoc, List.append_assoc]
        exact List.perm_append_comm.append_left _
      have hids : ((parkedRsegs s ++ [({ r with hist := t0 :: tt } : PurgeRseg)]).map
          (fun x => x.id)).Nodup := by
        rw [activeList_some s r hr] at hu
        have heq : ((parkedRsegs s ++ [({ r with hist := t0 :: tt } : PurgeRseg)]).map
            (fun x => x.id)) = ((parkedRsegs s ++ [r]).map (fun x => x.id)) := by
          rw [List.map_append, List.map_append]
          rfl
        rw [heq]
        exact hu
      exact ((hperm.map (fun x => x.id)).nodup_iff).mpr hids

theorem advance_PInv (s : PurgeState) (r : PurgeRseg) (hr : s.rseg = some r)
    (hu : ((parkedRsegs s ++ activeList s).map (fun x => x.id)).Nodup) :
    PInv (trx_purge_choose_next_log (trx_purge_rseg_get_next_history_log s)) :=
  choose_PInv _ (get_next_history_log_ns s r hr) (histlog_parked_nodup s r hr hu)

theorem pendOf_parked_eq_nil (s : PurgeState) (r : PurgeRseg) (hr : s.rseg = some r)
    (hu : ((parkedRsegs s ++ activeList s).map (fun x => x.id)).Nodup) :
    pendOf (parkedRsegs s) r.id = [] := by
  apply pendOf_nil_of_not_mem
  intro x hx hxi
  rw [activeList_some s r hr, List.map_append, List.nodup_append] at hu
  exact hu.2.2 (List.mem_map.mpr ⟨x, hx, rfl⟩) (by simp [hxi])

theorem pendActive_eq_cursor (s : PurgeState) (r : PurgeRseg) (hr : s.rseg = some r)
    (hns : s.next_stored = true) (hoff : s.offset0 = false)
    (hneeds : r.needs_purge ≠ 0) :
    pendActive s = s.curRecs.map (fun u => ⟨(r.hist.headD ⟨0, []⟩).trx_no, u⟩)
      ++ flatHist r.hist.tail := by
  unfold pendActive
  rw [hr]
  dsimp only
  rw [if_neg hneeds, hns, hoff]
  simp

theorem pendActive_off0 (s : PurgeState) (r : PurgeRseg) (hr : s.rseg = some r)
    (hoff : s.offset0 = true)
    (hrec : r.needs_purge ≠ 0 → ∀ log, r.hist.head? = some log → log.recs = []) :
    pendActive s = pendParked { r with hist := r.hist.tail } := by
  unfold pendActive pendParked
  rw [hr]
  dsimp only
  rw [hoff]
  simp only [Bool.not_true, Bool.and_false, Bool.false_eq_true, if_false]
  by_cases hz : r.needs_purge = 0
  · rw [if_pos hz, if_pos hz]
  · rw [if_neg hz, if_neg hz]
    cases hhist : r.hist with
    | nil => rfl
    | cons log t =>
      have hl : log.recs = [] := hrec hz log (by rw [hhist]; rfl)
      unfold flatHist
      simp [flatLog, hl]

theorem get_next_rec_step (s : PurgeState) (hinv : PInv s) (hns : s.next_stored = true) :
    PInv (trx_purge_get_next_rec s).1 ∧
    ∀ i, Ppend s i
      = emsFor i (resRecs (trx_purge_get_next_rec s).2)
        ++ Ppend (trx_purge_get_next_rec s).1 i := by
  unfold trx_purge_get_next_rec
  cases hr : s.rseg with
  | none =>
    dsimp only
    exact ⟨hinv, fun i => by simp [resRecs, emsFor]⟩
  | some r =>
    dsimp only
    cases hoff : s.offset0 with
    | true =>
      rw [if_pos rfl]
      dsimp only
      constructor
      · exact advance_PInv s r hr hinv.uniq
      · intro i
        rw [advance_Ppend s r hr hinv.uniq i, Ppend_eq, Pactive_some s r i hr]
        obtain ⟨r2, hr2, hrec⟩ := hinv.off0_shape hns hoff
        rw [hr] at hr2
        injection hr2 with hr2e
        subst hr2e
        rw [pendActive_off0 s r hr hoff hrec]
        simp [emsFor, resRecs]
    | false =>
      rw [if_neg Bool.false_ne_true]
      have hneeds : r.needs_purge ≠ 0 := by
        obtain ⟨r2, hr2, hn⟩ := hinv.cursor hns hoff
        rw [hr] at hr2
        injection hr2 with he
        rw [he]
        exact hn
      cases hcur : s.curRecs with
      | nil =>
        dsimp only
        exact ⟨hinv, fun i => by simp [resRecs, emsFor]⟩
      | cons u rest =>
        dsimp only
        cases rest with
        | nil =>
          dsimp only
          constructor
          · exact advance_PInv s r hr hinv.uniq
          · intro i
            rw [advance_Ppend s r hr hinv.uniq i, Ppend_eq, Pactive_some s r i hr,
                pendActive_eq_cursor s r hr hns hoff hneeds, hcur]
            by_cases hi : r.id = i
            · subst hi
              rw [if_pos rfl, if_pos rfl, pendOf_parked_eq_nil s r hr hinv.uniq]
              simp [emsFor, resRecs, pendParked, hneeds]
            · rw [if_neg hi, if_neg hi]
              simp [emsFor, resRecs, hi]
        | cons u2 rest2 =>
          dsimp only
          constructor
          · refine ⟨?_, ?_, ?_, ?_⟩
            · intro h
              have h2 : s.next_stored = false := h
              rw [hns] at h2
              exact absurd h2 (by simp)
            · intro _ h2
              exact absurd (h2 : false = true) (by simp)
            · intro _ _
              exact ⟨r, rfl, hneeds⟩
            · have h4 := hinv.uniq
              rw [activeList_some s r hr] at h4
              exact h4
          · intro i
            have hLrseg : (⟨s.queue, s.grp, some r, u2 :: rest2, false,
                ⟨s.tail.trx_no, u2⟩, s.head, s.next_stored, s.low_limit_no,
                s.pages⟩ : PurgeState).rseg = some r := rfl
            have hpa := pendActive_eq_cursor
              (⟨s.queue, s.grp, some r, u2 :: rest2, false, ⟨s.tail.trx_no, u2⟩,
                s.head, s.next_stored, s.low_limit_no, s.pages⟩ : PurgeState)
              r hLrseg hns rfl hneeds
            dsimp only at hpa
            rw [Ppend_eq, Ppend_eq, Pactive_some s r i hr, Pactive_some _ r i hLrseg,
                hpa, pendActive_eq_cursor s r hr hns hoff hneeds, hcur]
            have hparkedL : pendOf (parkedRsegs (⟨s.queue, s.grp, some r,
                u2 :: rest2, false, ⟨s.tail.trx_no, u2⟩, s.head, s.next_stored,
                s.low_limit_no, s.pages⟩ : PurgeState)) i
                = pendOf (parkedRsegs s) i := rfl
            rw [hparkedL]
            by_cases hi : r.id = i
            · subst hi
              rw [if_pos rfl, if_pos rfl, pendOf_parked_eq_nil s r hr hinv.uniq]
              simp [emsFor, resRecs]
            · rw [if_neg hi, if_neg hi]
              simp [emsFor, resRecs, hi]

theorem fetch_step (s : PurgeState) (hinv : PInv s) :
    PInv (trx_purge_fetch_next_rec s).1 ∧
    ∀ i, Ppend s i
      = emsFor i (oresRecs (trx_purge_fetch_next_rec s).2)
        ++ Ppend (trx_purge_fetch_next_rec s).1 i := by
  unfold trx_purge_fetch_next_rec
  dsimp only
  set s1 := if s.next_stored = true then s else trx_purge_choose_next_log s with hs1
  have h1 : PInv s1 ∧ ∀ i, Ppend s i = Ppend s1 i := by
    rw [hs1]
    by_cases hn : s.next_stored = true
    · rw [if_pos hn]
      exact ⟨hinv, fun i => rfl⟩
    · rw [if_neg hn]
      simp at hn
      constructor
      · exact choose_PInv s hn (parked_nodup_of_uniq s hinv.uniq)
      · intro i
        rw [choose_Ppend s (parked_nodup_of_uniq s hinv.uniq) i, Ppend_eq,
            Pactive_none s i (hinv.not_ns hn), List.append_nil]
  by_cases h2 : s1.next_stored = false
  · rw [if_pos h2]
    exact ⟨h1.1, fun i => by simp [oresRecs, emsFor, h1.2 i]⟩
  · rw [if_neg h2]
    by_cases h3 : s1.low_limit_no ≤ s1.tail.trx_no
    · rw [if_pos h3]
      exact ⟨h1.1, fun i => by simp [oresRecs, emsFor, h1.2 i]⟩
    · rw [if_neg h3]
      have hns1 : s1.next_stored = true := by
        cases hb : s1.next_stored
        · exact absurd hb h2
        · rfl
      have hgr := get_next_rec_step s1 h1.1 hns1
      rcases hg : trx_purge_get_next_rec s1 with ⟨s2, res⟩
      rw [hg] at hgr
      dsimp only at hgr ⊢
      refine ⟨hgr.1, fun i => ?_⟩
      rw [h1.2 i, hgr.2 i]
      rfl

theorem emsFor_append (i : Nat) (l1 l2 : List (Nat × PurgePos)) :
    emsFor i (l1 ++ l2) = emsFor i l1 ++ emsFor i l2 := by
  simp [emsFor, List.filter_append]

theorem emsFor_cons (i : Nat) (e : Nat × PurgePos) (l : List (Nat × PurgePos)) :
    emsFor i (e :: l) = (if e.1 = i then [e.2] else []) ++ emsFor i l := by
  by_cases h : e.1 = i <;> simp [emsFor, List.filter_cons, h]

theorem attachLoop_prefix (batch : Nat) :
    ∀ (fuel : Nat) (s : PurgeState), PInv s →
      ∀ i, (emsFor i (attachLoop batch fuel s).2).IsPrefix (Ppend s i)
  | 0, s, _, i => by
    simp [attachLoop, emsFor]
  | fuel+1, s, hinv, i => by
    unfold attachLoop
    dsimp only
    set s0 := if s.head ≤ s.tail then { s with head := s.tail } else s with hs0
    have hinv0 : PInv s0 := by
      rw [hs0]
      split_ifs
      · exact ⟨hinv.not_ns, hinv.off0_shape, hinv.cursor, hinv.uniq⟩
      · exact hinv
    have hpp0 : ∀ j, Ppend s0 j = Ppend s j := by
      intro j
      rw [hs0]
      split_ifs
      · rfl
      · rfl
    have hf := fetch_step s0 hinv0
    cases hfp : trx_purge_fetch_next_rec s0 with
    | mk s1 ores =>
      rw [hfp] at hf
      dsimp only at hf
      cases ores with
      | none =>
        dsimp only
        simp [emsFor]
      | some fr =>
        cases fr with
        | dummy =>
          dsimp only
          have hrec := attachLoop_prefix batch fuel s1 hf.1 i
          have he2 : Ppend s i = Ppend s1 i := by
            have h5 := (hpp0 i).symm.trans (hf.2 i)
            simpa [oresRecs, resRecs, emsFor] using h5
          rw [he2]
          exact hrec
        | undoRec j p =>
          dsimp only
          by_cases hb : batch ≤ s1.pages
          · rw [if_pos hb]
            have h5 : Ppend s i
                = emsFor i (oresRecs (some (FetchRes.undoRec j p))) ++ Ppend s1 i :=
              (hpp0 i).symm.trans (hf.2 i)
            exact ⟨Ppend s1 i, h5.symm⟩
          · rw [if_neg hb]
            cases hal : attachLoop batch fuel s1 with
            | mk s2 ems =>
              dsimp only
              have hrec := attachLoop_prefix batch fuel s1 hf.1 i
              rw [hal] at hrec
              dsimp only at hrec
              obtain ⟨t, ht⟩ := hrec
              have h5 : Ppend s i = emsFor i [(j, p)] ++ Ppend s1 i :=
                (hpp0 i).symm.trans (hf.2 i)
              refine ⟨t, ?_⟩
              rw [← List.singleton_append, emsFor_append, List.append_assoc, ht]
              exact h5.symm

theorem pairwise_of_prefix {l1 l2 : List PurgePos}
    (h : l1.IsPrefix l2) (hp : l2.Pairwise (· ≤ ·)) : l1.Pairwise (· ≤ ·) :=
  hp.sublist h.sublist

theorem pairwise_groups (l : List (Nat × PurgePos))
    (h : ∀ i, (emsFor i l).Pairwise (· ≤ ·)) :
    l.Pairwise (fun a b => a.1 = b.1 → a.2 ≤ b.2) := by
  induction l with
  | nil => exact List.Pairwise.nil
  | cons e l ih =>
    constructor
    · intro b hb heq
      have h1 := h e.1
      rw [emsFor_cons, if_pos rfl] at h1
      simp only [List.singleton_append] at h1
      have hmem : b.2 ∈ emsFor e.1 l := by
        unfold emsFor
        apply List.mem_map.mpr
        refine ⟨b, List.mem_filter.mpr ⟨hb, ?_⟩, rfl⟩
        simp [← heq]
      exact (List.pairwise_cons.mp h1).1 _ hmem
    · apply ih
      intro i
      have h2 := h i
      rw [emsFor_cons] at h2
      by_cases he : e.1 = i
      · rw [if_pos he] at h2
        simp only [List.singleton_append] at h2
        exact (List.pairwise_cons.mp h2).2
      · rw [if_neg he] at h2
        simpa using h2

/-- C6: within-segment purge order — over a whole batch of
`trx_purge_attach_undo_recs`, any two records fetched from the same
rollback segment come out in non-decreasing `(trx_no, undo_no)` order.
The hypotheses say the batch starts from a consistent purge state
(`PInv`: a cleared segment pointer when nothing is stored, an empty
current log behind a dummy cursor, a purgeable segment behind a real
cursor, and each rollback segment referenced from exactly one place) in
which every segment's pending records — history-list entries oldest
first, records of one log in increasing `undo_no` order — are sorted,
which is the spec's data-model assumption on history lists. -/
theorem trx_purge_within_rseg_order (batch fuel : Nat) (s : PurgeState)
    (hinv : PInv s) (hsort : ∀ i, (Ppend s i).Pairwise (· ≤ ·)) :
    (trx_purge_attach_undo_recs batch fuel s).2.Pairwise
      (fun a b => a.1 = b.1 → a.2 ≤ b.2) := by
  apply pairwise_groups
  intro i
  unfold trx_purge_attach_undo_recs
  have hinv0 : PInv { s with head := s.tail } :=
    ⟨hinv.not_ns, hinv.off0_shape, hinv.cursor, hinv.uniq⟩
  have hpre := attachLoop_prefix batch fuel { s with head := s.tail } hinv0 i
  have hsort0 : (Ppend { s with head := s.tail } i).Pairwise (· ≤ ·) := hsort i
  exact pairwise_of_prefix hpre hsort0

/-- C6 witness: `trx_purge_within_rseg_order` on a batch over one
rollback segment with two records (5 and 7) of the log committed at
trx_no 3, under the view floor 10. -/
theorem trx_purge_within_rseg_order_witness :
    (trx_purge_attach_undo_recs 100 10
      ⟨[], [], some ⟨1, 0, [⟨3, [5, 7]⟩], 1⟩, [5, 7], false, ⟨3, 5⟩, ⟨0, 0⟩,
        true, 10, 0⟩).2.Pairwise (fun a b => a.1 = b.1 → a.2 ≤ b.2) := by
  apply trx_purge_within_rseg_order 100 10
    ⟨[], [], some ⟨1, 0, [⟨3, [5, 7]⟩], 1⟩, [5, 7], false, ⟨3, 5⟩, ⟨0, 0⟩,
      true, 10, 0⟩
  · refine ⟨?_, ?_, ?_, ?_⟩
    · intro h
      simp at h
    · intro _ h
      simp at h
    · intro _ _
      exact ⟨⟨1, 0, [⟨3, [5, 7]⟩], 1⟩, rfl, by decide⟩
    · decide
  · intro i
    by_cases h : (1 : Nat) = i
    · subst h
      decide
    · have hPa : Pactive
          ⟨[], [], some ⟨1, 0, [⟨3, [5, 7]⟩], 1⟩, [5, 7], false, ⟨3, 5⟩, ⟨0, 0⟩,
            true, 10, 0⟩ i = [] := by
        unfold Pactive
        dsimp only
        rw [if_neg h]
      rw [Ppend_eq, hPa]
      simp [pendOf, parkedRsegs]
